import Mathlib

/-!
Verification development for the region-bridging engine of
`mintpy/objects/conncomp.py` (class `connectComponent`).

Modelling conventions, used throughout:

* 2D numpy arrays are modelled by `Grid α`: explicit dimensions plus a total
  cell function (cells outside the dimensions are irrelevant; all scans
  enumerate only in-bounds pixels, exactly as numpy does).
* Phase values (float32 in the source) are modelled exactly, as rationals
  **in units of π radians**: a stored value `q : ℚ` stands for the phase
  `q·π`.  Under this change of units the source's only transcendental
  constant disappears: `(|diff| + π) // (2π)` becomes `⌊(|d| + 1) / 2⌋` and
  the applied offset `2π·numJump` becomes `2·numJump`.
* IEEE NaN is modelled by `Option ℚ`: `none` is NaN.  numpy's `nanmedian`
  drops NaNs and returns NaN on an empty selection; arithmetic on NaN
  yields NaN; `NaN > 0` is false; adding NaN to a slice poisons it.  All of
  these behaviours are reproduced on `Option ℚ` below.
* External library collaborators (scipy `minimum_spanning_tree`,
  `breadth_first_order`, skimage `measure.label`, `find_boundaries`,
  `cKDTree`) are not repository code; where a claim depends on them they
  are either given as faithful executable models (breadth-first order) or
  abstracted by their documented contract (the spanning tree produced by
  the MST routine, the nearest-pair oracle, the dense labelling contract),
  as noted at each definition.
-/

/- Core `Rat` arithmetic is `@[irreducible]`, which blocks kernel evaluation
of concrete witnesses; restore the default reducibility for this file. -/
attribute [local semireducible] Rat.add Rat.sub Rat.mul Rat.inv

/-- A 2D array: row count `length`, column count `width`, and a total cell
function `data row col`.  Mirrors `self.length, self.width = conncomp.shape`. -/
structure Grid (α : Type) where
  length : ℕ
  width : ℕ
  data : ℕ → ℕ → α

/-- All in-bounds pixel coordinates `(y, x)` of a `length × width` grid, in
raster order. -/
def gridPixels (len wid : ℕ) : List (ℕ × ℕ) :=
  (List.range len).flatMap (fun y => (List.range wid).map (fun x => (y, x)))

theorem mem_gridPixels {len wid : ℕ} {p : ℕ × ℕ} :
    p ∈ gridPixels len wid ↔ p.1 < len ∧ p.2 < wid := by
  cases p with
  | mk y x =>
    simp only [gridPixels, List.mem_flatMap, List.mem_map, List.mem_range,
      Prod.mk.injEq]
    constructor
    · rintro ⟨a, ha, b, hb, h1, h2⟩; subst h1; subst h2; exact ⟨ha, hb⟩
    · rintro ⟨hy, hx⟩; exact ⟨y, hy, x, hx, rfl, rfl⟩

/-- Insertion into a sorted list of rationals (ascending). -/
def insertSorted (a : ℚ) : List ℚ → List ℚ
  | [] => [a]
  | b :: l => if a ≤ b then a :: b :: l else b :: insertSorted a l

/-- Ascending sort of a list of rationals (models the sort inside
`np.median`). -/
def sortQ (l : List ℚ) : List ℚ := l.foldr insertSorted []

/-- Median of a list of rationals, exactly as `np.median` computes it: sort
ascending; odd length takes the middle element, even length averages the two
middle elements; the empty selection has no median (numpy returns NaN). -/
def medianQ (l : List ℚ) : Option ℚ :=
  if (sortQ l).length = 0 then none
  else if (sortQ l).length % 2 = 1 then (sortQ l)[(sortQ l).length / 2]?
  else some ((((sortQ l)[(sortQ l).length / 2 - 1]?).getD 0 +
      ((sortQ l)[(sortQ l).length / 2]?).getD 0) / 2)

/-- Model of `np.nanmedian`: drop the NaN entries, then take the median; an empty
remainder gives NaN (`none`). -/
def nanmedian (l : List (Option ℚ)) : Option ℚ := medianQ (l.filterMap id)

/-- Values of the cell function `u` over the in-bounds pixels selected by the
boolean mask `m` (boolean fancy-indexing `u[m]`, scanned in raster order).
The pixel ranges come from the label image's shape, as in the source, where
`unw[mask]` requires `unw` to share `labelImg`'s shape. -/
def maskedVals (lab : Grid ℕ) (u : Grid (Option ℚ)) (m : ℕ → ℕ → Bool) :
    List (Option ℚ) :=
  (gridPixels lab.length lab.width).filterMap
    (fun p => if m p.1 p.2 then some (u.data p.1 p.2) else none)

/-- One bridge of `self.bridges`: endpoint pixel coordinates and the two
region labels (`label0` = parent / already-corrected side, `label1` = child). -/
structure Bridge where
  x0 : ℕ
  y0 : ℕ
  x1 : ℕ
  y1 : ℕ
  label0 : ℕ
  label1 : ℕ
deriving DecidableEq

instance : Inhabited Bridge := ⟨⟨0, 0, 0, 0, 0, 0⟩⟩

/-- One square AOI window of `get_bridge_endpoint_aoi_mask`, as a pixel
predicate: the slice `[max(0,yc−r) : min(length,yc+r), max(0,xc−r) :
min(width,xc+r)]` (ℕ subtraction is the `max(0, ·)` of the source). -/
def aoiWindow (len wid xc yc r : ℕ) (y x : ℕ) : Bool :=
  decide (yc - r ≤ y) && decide (y < min len (yc + r)) &&
  (decide (xc - r ≤ x) && decide (x < min wid (xc + r)))

/-- Model of `get_bridge_endpoint_aoi_mask(bridge, radius)`: the two AOI masks around
the bridge's endpoints. -/
def get_bridge_endpoint_aoi_mask (lab : Grid ℕ) (b : Bridge) (r : ℕ) :
    (ℕ → ℕ → Bool) × (ℕ → ℕ → Bool) :=
  (aoiWindow lab.length lab.width b.x0 b.y0 r,
   aoiWindow lab.length lab.width b.x1 b.y1 r)

/-- The pixels sampled for `value0`: AOI window 0 intersected with
`labelImg == bridge['label0']` (the mask product `aoi_mask0 * label_mask0`). -/
def bridgeVals0 (lab : Grid ℕ) (u : Grid (Option ℚ)) (r : ℕ) (b : Bridge) :
    List (Option ℚ) :=
  maskedVals lab u
    (fun y x => (get_bridge_endpoint_aoi_mask lab b r).1 y x &&
      (lab.data y x == b.label0))

/-- The pixels sampled for `value1`: AOI window 1 intersected with
`labelImg == bridge['label1']`. -/
def bridgeVals1 (lab : Grid ℕ) (u : Grid (Option ℚ)) (r : ℕ) (b : Bridge) :
    List (Option ℚ) :=
  maskedVals lab u
    (fun y x => (get_bridge_endpoint_aoi_mask lab b r).2 y x &&
      (lab.data y x == b.label1))

/-- Source line 211, `value0 = np.nanmedian(unw[aoi_mask0 * label_mask0])`. -/
def bridgeValue0 (lab : Grid ℕ) (u : Grid (Option ℚ)) (r : ℕ) (b : Bridge) :
    Option ℚ :=
  nanmedian (bridgeVals0 lab u r b)

/-- Source line 212, `value1 = np.nanmedian(unw[aoi_mask1 * label_mask1])`. -/
def bridgeValue1 (lab : Grid ℕ) (u : Grid (Option ℚ)) (r : ℕ) (b : Bridge) :
    Option ℚ :=
  nanmedian (bridgeVals1 lab u r b)

/-- The integer number of phase jumps, in π units:
`num_jump = (|diff| + π) // (2π)`, negated when `diff > 0`.
(`(|d·π| + π) / (2π) = (|d| + 1) / 2`.) -/
def numJumpQ (d : ℚ) : ℤ :=
  if 0 < d then -(⌊(|d| + 1) / 2⌋) else ⌊(|d| + 1) / 2⌋

/-- Model of `unw[labelImg == l] += c` (in π units): shift every pixel of region `l`
by `c`; NaN cells stay NaN. -/
def shiftRegion (lab : Grid ℕ) (l : ℕ) (c : ℚ) (u : Grid (Option ℚ)) :
    Grid (Option ℚ) :=
  { u with data := fun y x =>
      if lab.data y x == l then (u.data y x).map (fun v => v + c)
      else u.data y x }

/-- Model of `unw[labelImg == l] += NaN`: every pixel of region `l` becomes NaN. -/
def poisonRegion (lab : Grid ℕ) (l : ℕ) (u : Grid (Option ℚ)) :
    Grid (Option ℚ) :=
  { u with data := fun y x =>
      if lab.data y x == l then none else u.data y x }

/-- Source line 213, `diff_value = value1 - value0` (NaN-propagating). -/
def bridgeDiff (lab : Grid ℕ) (u : Grid (Option ℚ)) (r : ℕ) (b : Bridge) :
    Option ℚ :=
  match bridgeValue0 lab u r b, bridgeValue1 lab u r b with
  | some v0, some v1 => some (v1 - v0)
  | _, _ => none

/-- The `num_jump` computed at one bridge (`none` when it is NaN). -/
def bridgeJump (lab : Grid ℕ) (u : Grid (Option ℚ)) (r : ℕ) (b : Bridge) :
    Option ℤ :=
  match bridgeDiff lab u r b with
  | some d => some (numJumpQ d)
  | none => none

/-- The body of the bridge loop of `unwrap_conn_comp` (source lines 204-221):
sample the two medians, compute `num_jump`, and add `2π·num_jump` to every
pixel of region `label1`.  When a median is NaN, `num_jump` is NaN
(`NaN > 0` is false, so the sign flip does not fire) and the `+=` poisons
the whole region. -/
def bridgeStep (lab : Grid ℕ) (r : ℕ) (u : Grid (Option ℚ)) (b : Bridge) :
    Grid (Option ℚ) :=
  match bridgeDiff lab u r b with
  | some d => shiftRegion lab b.label1 (2 * (numJumpQ d : ℚ)) u
  | none => poisonRegion lab b.label1 u

/-- Per-bridge record of the quantities the loop computes. -/
structure StepInfo where
  diff : Option ℚ
  jump : Option ℤ
deriving DecidableEq

/-- The bridge loop: fold `bridgeStep` over the ordered bridge list, recording
each bridge's `diff_value` and `num_jump`. -/
def stitchRun (lab : Grid ℕ) (r : ℕ) :
    Grid (Option ℚ) → List Bridge → Grid (Option ℚ) × List StepInfo
  | u, [] => (u, [])
  | u, b :: bs =>
    let info : StepInfo := ⟨bridgeDiff lab u r b, bridgeJump lab u r b⟩
    let rest := stitchRun lab r (bridgeStep lab r u b) bs
    (rest.1, info :: rest.2)

/-- Model of `unw[unw != 0.] -= unw[refY, refX]` (source line 196): subtract the
reference pixel's value from every pixel that is not exactly the raw zero
sentinel.  A NaN reference poisons every nonzero pixel (`NaN != 0` is true
in numpy); NaN cells compare `!= 0` as true and stay NaN under subtraction. -/
def normalizeRef (u : Grid (Option ℚ)) : Option (ℕ × ℕ) → Grid (Option ℚ)
  | none => u
  | some (ry, rx) =>
    match u.data ry rx with
    | some rv =>
      { u with data := fun y x =>
          (u.data y x).map (fun v => if v ≠ 0 then v - rv else v) }
    | none =>
      { u with data := fun y x =>
          match u.data y x with
          | some v => if v ≠ 0 then none else some v
          | none => none }

/-- Model of `radius = int(min(radius, min(conncomp.shape) * 0.05))` (line 192):
clamp the AOI radius to 5% of the smaller image dimension (`int` truncation
is `⌊·⌋` on these non-negative values). -/
def clampRadius (len wid radius : ℕ) : ℕ :=
  Int.toNat (Rat.floor (min ((radius : ℚ)) (((min len wid : ℕ) : ℚ) * 5 / 100)))

/-- Model of `unwrap_conn_comp(unw, radius, ramp_type=None)` (lines 190-235,
without the optional deramp branch, an external collaborator): clamp the
radius, normalize to the reference pixel if one exists, then run the ordered
bridge loop.  Returns the corrected field and the per-bridge computations. -/
def unwrap_conn_comp (lab : Grid ℕ) (refYX : Option (ℕ × ℕ))
    (bridges : List Bridge) (u : Grid (Option ℚ)) (radius : ℕ) :
    Grid (Option ℚ) × List StepInfo :=
  let r := clampRadius lab.length lab.width radius
  stitchRun lab r (normalizeRef u refYX) bridges

/-! ### Sorting and median lemmas -/

theorem insertSorted_perm (a : ℚ) (l : List ℚ) :
    (insertSorted a l).Perm (a :: l) := by
  induction l with
  | nil => exact List.Perm.refl _
  | cons b t ih =>
    rw [insertSorted]
    by_cases hab : a ≤ b
    · simp [hab]
    · simp only [if_neg hab]
      exact ((ih.cons b).trans (List.Perm.swap a b t))

theorem sortQ_perm (l : List ℚ) : (sortQ l).Perm l := by
  induction l with
  | nil => exact List.Perm.refl _
  | cons a t ih =>
    exact (insertSorted_perm a (sortQ t)).trans (ih.cons a)

theorem sorted_insertSorted (a : ℚ) (l : List ℚ)
    (h : l.Sorted (· ≤ ·)) : (insertSorted a l).Sorted (· ≤ ·) := by
  induction l with
  | nil => simp [insertSorted]
  | cons b t ih =>
    rw [insertSorted]
    rcases List.sorted_cons.mp h with ⟨hb, ht⟩
    by_cases hab : a ≤ b
    · refine if_pos hab ▸ List.sorted_cons.mpr ⟨?_, h⟩
      intro c hc
      rcases List.mem_cons.mp hc with rfl | hc
      · exact hab
      · exact le_trans hab (hb c hc)
    · refine if_neg hab ▸ List.sorted_cons.mpr ⟨?_, ih ht⟩
      intro c hc
      have := (insertSorted_perm a t).mem_iff.mp hc
      rcases List.mem_cons.mp this with rfl | hc2
      · exact le_of_not_le hab
      · exact hb c hc2

theorem sortQ_sorted (l : List ℚ) : (sortQ l).Sorted (· ≤ ·) := by
  induction l with
  | nil => simp [sortQ]
  | cons a t ih => exact sorted_insertSorted a (sortQ t) ih

theorem insertSorted_map_add (a c : ℚ) (l : List ℚ) :
    insertSorted (a + c) (l.map (fun v => v + c)) =
      (insertSorted a l).map (fun v => v + c) := by
  induction l with
  | nil => rfl
  | cons b t ih =>
    simp only [List.map_cons, insertSorted]
    by_cases hab : a ≤ b
    · rw [if_pos (by linarith), if_pos hab, List.map_cons, List.map_cons]
    · rw [if_neg (by intro h; exact hab (by linarith)), if_neg hab,
        List.map_cons, ih]

theorem sortQ_map_add (c : ℚ) (l : List ℚ) :
    sortQ (l.map (fun v => v + c)) = (sortQ l).map (fun v => v + c) := by
  induction l with
  | nil => rfl
  | cons a t ih =>
    simp only [List.map_cons, sortQ, List.foldr_cons]
    rw [show (List.foldr insertSorted [] (List.map (fun v => v + c) t)) =
          sortQ (List.map (fun v => v + c) t) from rfl, ih]
    exact insertSorted_map_add a c (sortQ t)

theorem medianQ_map_add (c : ℚ) (l : List ℚ) :
    medianQ (l.map (fun v => v + c)) = (medianQ l).map (fun v => v + c) := by
  unfold medianQ
  rw [sortQ_map_add, List.length_map]
  by_cases h0 : (sortQ l).length = 0
  · simp [h0]
  · rw [if_neg h0, if_neg h0]
    by_cases hodd : (sortQ l).length % 2 = 1
    · rw [if_pos hodd, if_pos hodd, List.getElem?_map]
    · rw [if_neg hodd, if_neg hodd]
      have hn : 0 < (sortQ l).length := Nat.pos_of_ne_zero h0
      have h2 : (sortQ l).length / 2 < (sortQ l).length :=
        Nat.div_lt_self hn one_lt_two
      have h1 : (sortQ l).length / 2 - 1 < (sortQ l).length :=
        lt_of_le_of_lt (Nat.sub_le _ _) h2
      rw [List.getElem?_map, List.getElem?_map,
        List.getElem?_eq_getElem h1, List.getElem?_eq_getElem h2]
      simp only [Option.map_some, Option.getD_some, Option.map]
      congr 1
      ring

theorem filterMap_id_map_opt (f : ℚ → ℚ) (l : List (Option ℚ)) :
    (l.map (Option.map f)).filterMap id = (l.filterMap id).map f := by
  induction l with
  | nil => rfl
  | cons a t ih => cases a <;> simp [ih]

theorem nanmedian_map_add (c : ℚ) (l : List (Option ℚ)) :
    nanmedian (l.map (Option.map (fun v => v + c))) =
      (nanmedian l).map (fun v => v + c) := by
  unfold nanmedian
  rw [filterMap_id_map_opt, medianQ_map_add]

/-! ### Region-local behaviour of the bridge loop -/

theorem maskedVals_congr (lab : Grid ℕ) (u w : Grid (Option ℚ))
    (m : ℕ → ℕ → Bool) (h : ∀ y x, m y x = true → u.data y x = w.data y x) :
    maskedVals lab u m = maskedVals lab w m := by
  unfold maskedVals
  refine List.filterMap_congr (fun p _ => ?_)
  by_cases hm : m p.1 p.2
  · rw [if_pos hm, if_pos hm, h p.1 p.2 hm]
  · rw [if_neg hm, if_neg hm]

theorem maskedVals_shift (lab : Grid ℕ) (u : Grid (Option ℚ))
    (m : ℕ → ℕ → Bool) (l : ℕ) (c : ℚ)
    (h : ∀ y x, m y x = true → lab.data y x = l) :
    maskedVals lab (shiftRegion lab l c u) m =
      (maskedVals lab u m).map (Option.map (fun v => v + c)) := by
  unfold maskedVals
  rw [List.map_filterMap]
  refine List.filterMap_congr (fun p _ => ?_)
  by_cases hm : m p.1 p.2
  · rw [if_pos hm, if_pos hm]
    simp only [shiftRegion, Option.map_some]
    rw [if_pos (beq_iff_eq.mpr (h p.1 p.2 hm))]
    rfl
  · rw [if_neg hm, if_neg hm]; rfl

theorem bridgeValue0_congr (lab : Grid ℕ) (u w : Grid (Option ℚ)) (r : ℕ)
    (b : Bridge) (h : ∀ y x, lab.data y x = b.label0 → u.data y x = w.data y x) :
    bridgeValue0 lab u r b = bridgeValue0 lab w r b := by
  unfold bridgeValue0 bridgeVals0
  rw [maskedVals_congr lab u w _ (fun y x hm => by
    refine h y x ?_
    have := (Bool.and_eq_true _ _).mp hm
    exact beq_iff_eq.mp this.2)]

theorem bridgeValue1_congr (lab : Grid ℕ) (u w : Grid (Option ℚ)) (r : ℕ)
    (b : Bridge) (h : ∀ y x, lab.data y x = b.label1 → u.data y x = w.data y x) :
    bridgeValue1 lab u r b = bridgeValue1 lab w r b := by
  unfold bridgeValue1 bridgeVals1
  rw [maskedVals_congr lab u w _ (fun y x hm => by
    refine h y x ?_
    have := (Bool.and_eq_true _ _).mp hm
    exact beq_iff_eq.mp this.2)]

theorem bridgeValue1_shift (lab : Grid ℕ) (u : Grid (Option ℚ)) (r : ℕ)
    (b : Bridge) (c : ℚ) :
    bridgeValue1 lab (shiftRegion lab b.label1 c u) r b =
      (bridgeValue1 lab u r b).map (fun v => v + c) := by
  unfold bridgeValue1 bridgeVals1
  rw [maskedVals_shift lab u _ b.label1 c (fun y x hm => by
    have := (Bool.and_eq_true _ _).mp hm
    exact beq_iff_eq.mp this.2)]
  exact nanmedian_map_add c _

theorem shiftRegion_data_of_ne (lab : Grid ℕ) (l : ℕ) (c : ℚ)
    (u : Grid (Option ℚ)) (y x : ℕ) (h : lab.data y x ≠ l) :
    (shiftRegion lab l c u).data y x = u.data y x := by
  unfold shiftRegion
  simp only []
  rw [if_neg (by simpa using h)]

theorem poisonRegion_data_of_ne (lab : Grid ℕ) (l : ℕ)
    (u : Grid (Option ℚ)) (y x : ℕ) (h : lab.data y x ≠ l) :
    (poisonRegion lab l u).data y x = u.data y x := by
  unfold poisonRegion
  simp only []
  rw [if_neg (by simpa using h)]

theorem bridgeStep_data_of_ne (lab : Grid ℕ) (r : ℕ) (u : Grid (Option ℚ))
    (b : Bridge) (y x : ℕ) (h : lab.data y x ≠ b.label1) :
    (bridgeStep lab r u b).data y x = u.data y x := by
  unfold bridgeStep
  cases bridgeDiff lab u r b with
  | some d => exact shiftRegion_data_of_ne lab b.label1 _ u y x h
  | none => exact poisonRegion_data_of_ne lab b.label1 u y x h

theorem stitchRun_data_untouched (lab : Grid ℕ) (r : ℕ) (bs : List Bridge)
    (u : Grid (Option ℚ)) (y x : ℕ)
    (h : ∀ b ∈ bs, lab.data y x ≠ b.label1) :
    ((stitchRun lab r u bs).1).data y x = u.data y x := by
  induction bs generalizing u with
  | nil => rfl
  | cons b rest ih =>
    show ((stitchRun lab r (bridgeStep lab r u b) rest).1).data y x = _
    rw [ih (bridgeStep lab r u b) (fun b2 hb2 => h b2 (List.mem_cons_of_mem b hb2)),
      bridgeStep_data_of_ne lab r u b y x (h b (List.mem_cons_self b rest))]

theorem stitchRun_infos_length (lab : Grid ℕ) (r : ℕ) (bs : List Bridge)
    (u : Grid (Option ℚ)) : ((stitchRun lab r u bs).2).length = bs.length := by
  induction bs generalizing u with
  | nil => rfl
  | cons b rest ih =>
    show (_ :: (stitchRun lab r (bridgeStep lab r u b) rest).2).length = _
    rw [List.length_cons, ih, List.length_cons]

/-! ### The cycle-jump arithmetic -/

theorem numJumpQ_eq_zero (e : ℚ) (h : |e| < 1) : numJumpQ e = 0 := by
  have h0 : ⌊(|e| + 1) / 2⌋ = 0 := by
    rw [Int.floor_eq_zero_iff]
    constructor
    · positivity
    · have := abs_nonneg e
      show (|e| + 1) / 2 < 1
      linarith
  unfold numJumpQ
  rw [h0]
  split <;> simp

/-- After applying the computed jump, the residual difference lies strictly
inside one half cycle, unless the original difference was an exact odd
multiple of π; hence a recomputation yields jump 0. -/
theorem numJumpQ_cancel (d : ℚ) (hodd : ∀ m : ℤ, |d| ≠ 2 * m + 1) :
    numJumpQ (d + 2 * ((numJumpQ d : ℤ) : ℚ)) = 0 := by
  have hfl : ((⌊(|d| + 1) / 2⌋ : ℤ) : ℚ) ≤ (|d| + 1) / 2 := Int.floor_le _
  have hfu : (|d| + 1) / 2 < ((⌊(|d| + 1) / 2⌋ : ℤ) : ℚ) + 1 :=
    Int.lt_floor_add_one _
  set k : ℤ := ⌊(|d| + 1) / 2⌋ with hk
  by_cases hpos : 0 < d
  · have habs : |d| = d := abs_of_pos hpos
    rw [habs] at hfl hfu
    have hstep : numJumpQ d = -k := by unfold numJumpQ; rw [if_pos hpos, ← hk]
    rw [hstep]
    refine numJumpQ_eq_zero _ (abs_lt.mpr ⟨?_, ?_⟩)
    · rcases lt_or_eq_of_le (by push_cast; linarith :
        (-1 : ℚ) ≤ d + 2 * ((-k : ℤ) : ℚ)) with hgt | heq
      · exact hgt
      · exfalso
        refine hodd (k - 1) ?_
        rw [habs]
        push_cast
        push_cast at heq
        linarith
    · push_cast; linarith
  · have hle : d ≤ 0 := le_of_not_lt hpos
    have habs : |d| = -d := abs_of_nonpos hle
    rw [habs] at hfl hfu
    have hstep : numJumpQ d = k := by unfold numJumpQ; rw [if_neg hpos, ← hk]
    rw [hstep]
    refine numJumpQ_eq_zero _ (abs_lt.mpr ⟨?_, ?_⟩)
    · linarith
    · rcases lt_or_eq_of_le (by linarith :
        d + 2 * ((k : ℤ) : ℚ) ≤ 1) with hgt | heq
      · exact hgt
      · exfalso
        refine hodd (k - 1) ?_
        rw [habs]
        push_cast
        linarith

theorem stitchRun_nil (lab : Grid ℕ) (r : ℕ) (u : Grid (Option ℚ)) :
    stitchRun lab r u [] = (u, []) := rfl

theorem stitchRun_cons (lab : Grid ℕ) (r : ℕ) (u : Grid (Option ℚ))
    (b : Bridge) (bs : List Bridge) :
    stitchRun lab r u (b :: bs) =
      ((stitchRun lab r (bridgeStep lab r u b) bs).1,
       ⟨bridgeDiff lab u r b, bridgeJump lab u r b⟩ ::
         (stitchRun lab r (bridgeStep lab r u b) bs).2) := rfl

theorem bridgeDiff_elim (lab : Grid ℕ) (u : Grid (Option ℚ)) (r : ℕ)
    (b : Bridge) (d : ℚ) (h : bridgeDiff lab u r b = some d) :
    ∃ v0 v1, bridgeValue0 lab u r b = some v0 ∧
      bridgeValue1 lab u r b = some v1 ∧ d = v1 - v0 := by
  unfold bridgeDiff at h
  cases h0 : bridgeValue0 lab u r b with
  | none => rw [h0] at h; cases h
  | some v0 =>
    cases h1 : bridgeValue1 lab u r b with
    | none => rw [h0, h1] at h; cases h
    | some v1 =>
      rw [h0, h1] at h
      exact ⟨v0, v1, rfl, rfl, (Option.some_inj.mp h).symm⟩

theorem bridgeStep_of_diff (lab : Grid ℕ) (u : Grid (Option ℚ)) (r : ℕ)
    (b : Bridge) (d : ℚ) (h : bridgeDiff lab u r b = some d) :
    bridgeStep lab r u b =
      shiftRegion lab b.label1 (2 * ((numJumpQ d : ℤ) : ℚ)) u ∧
    bridgeJump lab u r b = some (numJumpQ d) := by
  constructor
  · unfold bridgeStep; rw [h]
  · unfold bridgeJump; rw [h]

theorem shiftRegion_zero (lab : Grid ℕ) (l : ℕ) (u : Grid (Option ℚ)) :
    shiftRegion lab l (2 * (((0 : ℤ)) : ℚ)) u = u := by
  unfold shiftRegion
  cases u with
  | mk len wid dat =>
    simp only [Grid.mk.injEq, true_and]
    funext y x
    split
    · cases dat y x <;> simp
    · rfl

/-- A per-bridge `diff_value` that is present (not NaN) and is not an exact
odd multiple of π.  `q.den = 1 ∧ q.num odd` decides whether the rational
`q` (in π units) is an odd integer. -/
def goodDiff : Option ℚ → Bool
  | none => false
  | some q => !(decide ((|q|).den = 1) && decide ((|q|).num % 2 = 1))

theorem goodDiff_elim (d : Option ℚ) (h : goodDiff d = true) :
    ∃ q, d = some q ∧ ∀ m : ℤ, |q| ≠ 2 * (m : ℚ) + 1 := by
  cases d with
  | none => cases h
  | some q =>
    refine ⟨q, rfl, fun m hm => ?_⟩
    have hint : |q| = ((2 * m + 1 : ℤ) : ℚ) := by push_cast; exact hm
    have hden : (|q|).den = 1 := by rw [hint]; exact Rat.den_intCast _
    have hnum : (|q|).num % 2 = 1 := by
      rw [hint, Rat.num_intCast]; omega
    rw [goodDiff] at h
    rw [decide_eq_true hden, decide_eq_true hnum] at h
    cases h

/-- Encodes the breadth-first-search ordering property of the bridge list:
every bridge's `label0` never reappears as the `label1` of that bridge or a
later one (each region is corrected before it is used as a parent, and a
parent is never re-corrected afterwards). -/
def label0Sep : List Bridge → Bool
  | [] => true
  | b :: rest =>
    ((b :: rest).all (fun b2 => b.label0 != b2.label1)) && label0Sep rest

theorem normalizeRef_some_eq (u : Grid (Option ℚ)) (ry rx : ℕ) :
    normalizeRef u (some (ry, rx)) =
      match u.data ry rx with
      | some rv =>
        { u with data := fun y x =>
            (u.data y x).map (fun v => if v ≠ 0 then v - rv else v) }
      | none =>
        { u with data := fun y x =>
            match u.data y x with
            | some v => if v ≠ 0 then none else some v
            | none => none } := rfl

theorem normalizeRef_data_ref (u : Grid (Option ℚ)) (ry rx : ℕ) (rv : ℚ)
    (h : u.data ry rx = some rv) :
    (normalizeRef u (some (ry, rx))).data ry rx = some 0 := by
  rw [normalizeRef_some_eq, h]
  show (u.data ry rx).map (fun v => if v ≠ 0 then v - rv else v) = some 0
  rw [h]
  show some (if rv ≠ 0 then rv - rv else rv) = some 0
  by_cases hz : rv = 0
  · subst hz; simp
  · rw [if_pos hz, sub_self]

theorem normalizeRef_of_zero (u : Grid (Option ℚ)) (ry rx : ℕ)
    (h : u.data ry rx = some 0) : normalizeRef u (some (ry, rx)) = u := by
  rw [normalizeRef_some_eq, h]
  show { u with data := fun y x =>
      (u.data y x).map (fun v => if v ≠ 0 then v - 0 else v) } = u
  cases u with
  | mk len wid dat =>
    simp only [Grid.mk.injEq, true_and]
    funext y x
    cases dat y x with
    | none => rfl
    | some v =>
      show some (if v ≠ 0 then v - 0 else v) = some v
      split
      · rw [sub_zero]
      · rfl

/-- Core idempotence of the bridge loop: running the loop again from its own
final state recomputes `num_jump = 0` at every bridge and leaves the field
unchanged, provided every first-run `diff_value` exists and is not an exact
odd multiple of π, and the bridge list satisfies the breadth-first ordering
discipline. -/
theorem stitchRun_idem (lab : Grid ℕ) (r : ℕ) (bs : List Bridge)
    (u : Grid (Option ℚ))
    (hnodup : (bs.map (fun b => b.label1)).Nodup)
    (hsep : label0Sep bs = true)
    (hgood : ∀ info ∈ (stitchRun lab r u bs).2, goodDiff info.diff = true) :
    (stitchRun lab r (stitchRun lab r u bs).1 bs).1 = (stitchRun lab r u bs).1 ∧
    ((stitchRun lab r (stitchRun lab r u bs).1 bs).2).map (fun i => i.jump) =
      List.replicate bs.length (some 0) := by
  induction bs generalizing u with
  | nil => exact ⟨rfl, rfl⟩
  | cons b rest ih =>
    have hsep1 : ∀ b2 ∈ b :: rest, b.label0 ≠ b2.label1 := by
      have := (Bool.and_eq_true _ _).mp hsep
      intro b2 hb2
      have := (List.all_eq_true.mp this.1) b2 hb2
      exact bne_iff_ne.mp this
    have hsep2 : label0Sep rest = true := ((Bool.and_eq_true _ _).mp hsep).2
    have hnodup1 : b.label1 ∉ rest.map (fun b2 => b2.label1) :=
      (List.nodup_cons.mp (by simpa using hnodup)).1
    have hnodup2 : (rest.map (fun b2 => b2.label1)).Nodup :=
      (List.nodup_cons.mp (by simpa using hnodup)).2
    have hgood0 : goodDiff (bridgeDiff lab u r b) = true := by
      have := hgood ⟨bridgeDiff lab u r b, bridgeJump lab u r b⟩
      rw [stitchRun_cons] at this
      exact this (List.mem_cons_self _ _)
    have hgoodrest : ∀ info ∈ (stitchRun lab r (bridgeStep lab r u b) rest).2,
        goodDiff info.diff = true := by
      intro info hinfo
      refine hgood info ?_
      rw [stitchRun_cons]
      exact List.mem_cons_of_mem _ hinfo
    obtain ⟨d, hdiff, hodd⟩ := goodDiff_elim _ hgood0
    obtain ⟨v0, v1, hv0, hv1, hd⟩ := bridgeDiff_elim lab u r b d hdiff
    obtain ⟨hstep, _⟩ := bridgeStep_of_diff lab u r b d hdiff
    set c : ℚ := 2 * ((numJumpQ d : ℤ) : ℚ) with hc
    set F : Grid (Option ℚ) :=
      (stitchRun lab r (bridgeStep lab r u b) rest).1 with hF
    have hFdata : ∀ y x, lab.data y x = b.label0 ∨ lab.data y x = b.label1 →
        F.data y x = (bridgeStep lab r u b).data y x := by
      intro y x hyx
      refine stitchRun_data_untouched lab r rest (bridgeStep lab r u b) y x ?_
      intro b2 hb2
      rcases hyx with h0 | h1
      · rw [h0]; exact hsep1 b2 (List.mem_cons_of_mem b hb2)
      · rw [h1]
        intro hcontra
        exact hnodup1 (hcontra ▸ List.mem_map_of_mem (fun b2 => b2.label1) hb2)
    have hval0 : bridgeValue0 lab F r b = some v0 := by
      rw [bridgeValue0_congr lab F u r b ?_]
      · exact hv0
      · intro y x hyx
        rw [hFdata y x (Or.inl hyx), hstep,
          shiftRegion_data_of_ne lab b.label1 c u y x
            (hyx ▸ hsep1 b (List.mem_cons_self b rest))]
    have hval1 : bridgeValue1 lab F r b = some (v1 + c) := by
      have hcongr : bridgeValue1 lab F r b =
          bridgeValue1 lab (bridgeStep lab r u b) r b := by
        refine bridgeValue1_congr lab F (bridgeStep lab r u b) r b ?_
        intro y x hyx
        exact hFdata y x (Or.inr hyx)
      rw [hcongr, hstep, bridgeValue1_shift, hv1]
      rfl
    have hdiff2 : bridgeDiff lab F r b = some (d + c) := by
      unfold bridgeDiff
      rw [hval0, hval1]
      rw [hd]
      show some (v1 + c - v0) = some (v1 - v0 + c)
      rw [add_sub_right_comm]
    have hjump2 : numJumpQ (d + c) = 0 := numJumpQ_cancel d hodd
    obtain ⟨hstep2, hjumpinfo⟩ := bridgeStep_of_diff lab F r b (d + c) hdiff2
    have hfix : bridgeStep lab r F b = F := by
      rw [hstep2, hjump2]
      exact shiftRegion_zero lab b.label1 F
    obtain ⟨ih1, ih2⟩ := ih (bridgeStep lab r u b) hnodup2 hsep2 hgoodrest
    constructor
    · show (stitchRun lab r (bridgeStep lab r F b) rest).1 = F
      rw [hfix]
      exact ih1
    · show (bridgeJump lab F r b) ::
          ((stitchRun lab r (bridgeStep lab r F b) rest).2).map (fun i => i.jump) =
        List.replicate (rest.length + 1) (some 0)
      rw [hfix, hjumpinfo, hjump2, ih2, List.replicate_succ]

theorem unwrap_conn_comp_def (lab : Grid ℕ) (refYX : Option (ℕ × ℕ))
    (bridges : List Bridge) (u : Grid (Option ℚ)) (radius : ℕ) :
    unwrap_conn_comp lab refYX bridges u radius =
      stitchRun lab (clampRadius lab.length lab.width radius)
        (normalizeRef u refYX) bridges := rfl

/-! ### C1 : the cycle-count formula and the region-wide shift -/

/-- The π-unit jump count agrees with the source's radian formula
`floor((|diff| + π) / (2π))`. -/
theorem numJumpQ_real_formula (d : ℚ) :
    numJumpQ d =
      if 0 < d then -⌊(|(d : ℝ)| * Real.pi + Real.pi) / (2 * Real.pi)⌋
      else ⌊(|(d : ℝ)| * Real.pi + Real.pi) / (2 * Real.pi)⌋ := by
  have hpi : (Real.pi : ℝ) ≠ 0 := ne_of_gt Real.pi_pos
  have key : ⌊(|(d : ℝ)| * Real.pi + Real.pi) / (2 * Real.pi)⌋ =
      ⌊(|d| + 1) / 2⌋ := by
    have h1 : (|(d : ℝ)| * Real.pi + Real.pi) / (2 * Real.pi) =
        (((|d| + 1) / 2 : ℚ) : ℝ) := by
      push_cast
      field_simp
      ring
    rw [h1, Rat.floor_cast]
  unfold numJumpQ
  rw [key]

/-- C1: for every bridge whose two endpoint medians `value0`, `value1` exist,
the computed cycle count is `numJump = floor((|value1 − value0| + π) / (2π))`,
negated exactly when `value1 − value0 > 0`; and the step adds `2π·numJump`
(`2·numJump` in π units) to every pixel whose label-image value equals the
bridge's `label1` — the entire region, while every other pixel is untouched. -/
theorem c1_num_jump_formula_and_region_shift (lab : Grid ℕ)
    (u : Grid (Option ℚ)) (r : ℕ) (b : Bridge) (v0 v1 : ℚ)
    (h0 : bridgeValue0 lab u r b = some v0)
    (h1 : bridgeValue1 lab u r b = some v1) :
    bridgeJump lab u r b =
      some (if 0 < v1 - v0
        then -⌊(|((v1 - v0 : ℚ) : ℝ)| * Real.pi + Real.pi) / (2 * Real.pi)⌋
        else ⌊(|((v1 - v0 : ℚ) : ℝ)| * Real.pi + Real.pi) / (2 * Real.pi)⌋) ∧
    ∀ y x, (bridgeStep lab r u b).data y x =
      (if lab.data y x = b.label1
       then (u.data y x).map (fun v => v + 2 * ((numJumpQ (v1 - v0) : ℤ) : ℚ))
       else u.data y x) := by
  have hdiff : bridgeDiff lab u r b = some (v1 - v0) := by
    unfold bridgeDiff; rw [h0, h1]
  obtain ⟨hstep, hjump⟩ := bridgeStep_of_diff lab u r b (v1 - v0) hdiff
  constructor
  · rw [hjump, ← numJumpQ_real_formula]
  · intro y x
    rw [hstep]
    unfold shiftRegion
    by_cases h : lab.data y x = b.label1
    · rw [if_pos h]
      show (if (lab.data y x == b.label1) = true then _ else _) = _
      rw [if_pos (beq_iff_eq.mpr h)]
    · rw [if_neg h]
      show (if (lab.data y x == b.label1) = true then _ else _) = _
      rw [if_neg (by simpa using h)]

/-- Concrete 1×3 scene for the C1 witness: labels `[1, 0, 2]`. -/
def labC1 : Grid ℕ :=
  ⟨1, 3, fun _ x => if x = 0 then 1 else if x = 2 then 2 else 0⟩

/-- Concrete 1×3 phase field for the C1 witness: `[0, 0, 3π]`. -/
def uC1 : Grid (Option ℚ) :=
  ⟨1, 3, fun _ x => if x = 2 then some 3 else some 0⟩

/-- Concrete bridge for the C1 witness, from label 1 at `(0,0)` to label 2 at
`(0,2)`. -/
def bC1 : Bridge := ⟨0, 0, 2, 0, 1, 2⟩

theorem c1_witness :
    bridgeValue0 labC1 uC1 1 bC1 = some 0 ∧
    bridgeValue1 labC1 uC1 1 bC1 = some 3 ∧
    (bridgeJump labC1 uC1 1 bC1 =
      some (if 0 < (3 : ℚ) - 0
        then -⌊(|(((3 : ℚ) - 0 : ℚ) : ℝ)| * Real.pi + Real.pi) / (2 * Real.pi)⌋
        else ⌊(|(((3 : ℚ) - 0 : ℚ) : ℝ)| * Real.pi + Real.pi) / (2 * Real.pi)⌋) ∧
     ∀ y x, (bridgeStep labC1 1 uC1 bC1).data y x =
      (if labC1.data y x = bC1.label1
       then (uC1.data y x).map (fun v => v + 2 * ((numJumpQ ((3 : ℚ) - 0) : ℤ) : ℚ))
       else uC1.data y x)) :=
  ⟨by decide, by decide,
   c1_num_jump_formula_and_region_shift labC1 uC1 1 bC1 0 3 (by decide) (by decide)⟩

/-! ### C3 : the spec's concrete 10×10 scenario -/

/-- The label image the spec's scenario intends: region A (label 1) on rows
0–4, region B (label 2) on rows 5–9 of a 10×10 image. -/
def labC3 : Grid ℕ := ⟨10, 10, fun y _ => if y < 5 then 1 else 2⟩

/-- The scenario's phase field: 0 on region A, 4π (value 4 in π units) on
region B. -/
def uC3 : Grid (Option ℚ) :=
  ⟨10, 10, fun y _ => if y < 5 then some 0 else some 4⟩

/-- The single bridge A→B the scenario expects, with endpoints on the two
facing edges. -/
def bC3 : Bridge := ⟨5, 4, 5, 5, 1, 2⟩

/-- C3 counterexample: on a 10×10 image the radius rule clamps the AOI
radius to `int(min(50, 10·0.05)) = 0`, so both AOI windows are empty, the
medians are NaN, `num_jump` is NaN rather than −2, and region B of the
output is NaN rather than 0 — the claimed uniformly-zero stitched field is
impossible on this input. -/
theorem c3_counterexample :
    clampRadius 10 10 50 = 0 ∧
    ((unwrap_conn_comp labC3 (some (2, 5)) [bC3] uC3 50).2).map (fun i => i.jump) =
      [none] ∧
    (unwrap_conn_comp labC3 (some (2, 5)) [bC3] uC3 50).1.data 5 5 = none := by
  refine ⟨by decide, by decide, by decide⟩

/-- C3 amended: what the code actually produces on the scenario (granting it
its two regions and its bridge): the clamped radius 0 empties both AOI
windows, the bridge's `num_jump` is NaN, and the output keeps region A at 0
while all of region B becomes NaN. -/
theorem c3_small_image_nan (y : ℕ) (hy : y < 10) (x : ℕ) (hx : x < 10) :
    ((unwrap_conn_comp labC3 (some (2, 5)) [bC3] uC3 50).2).map (fun i => i.jump) =
      [none] ∧
    (unwrap_conn_comp labC3 (some (2, 5)) [bC3] uC3 50).1.data y x =
      (if y < 5 then some 0 else none) := by
  refine ⟨by decide, ?_⟩
  revert x hx
  revert y hy
  decide

theorem c3_small_image_nan_witness :
    (5 : ℕ) < 10 ∧ (5 : ℕ) < 10 ∧
    (((unwrap_conn_comp labC3 (some (2, 5)) [bC3] uC3 50).2).map (fun i => i.jump) =
       [none] ∧
     (unwrap_conn_comp labC3 (some (2, 5)) [bC3] uC3 50).1.data 5 5 =
       (if 5 < 5 then some 0 else none)) :=
  ⟨by decide, by decide, c3_small_image_nan 5 (by decide) 5 (by decide)⟩

/-! ### C4 : what the endpoint medians ignore -/

/-- Modelled from the spec's words for claim C4: the endpoint value as "the
median ... ignoring no-data values, where no-data pixels are those exactly
equal to the raw zero sentinel" — i.e. a median that drops zero-valued
pixels.  Defined only to be compared against the source's
`bridgeValue0`. -/
def specValue0ZeroSentinel (lab : Grid ℕ) (u : Grid (Option ℚ)) (r : ℕ)
    (b : Bridge) : Option ℚ :=
  medianQ (((bridgeVals0 lab u r b).filterMap id).filter (fun v => !(v == 0)))

/-- Concrete 1×3 scene for C4: one region, phase values `[0, 0, 10π]`. -/
def labC4 : Grid ℕ := ⟨1, 3, fun _ _ => 1⟩

def uC4 : Grid (Option ℚ) :=
  ⟨1, 3, fun _ x => if x = 2 then some 10 else some 0⟩

def bC4 : Bridge := ⟨1, 0, 1, 0, 1, 1⟩

/-- C4 counterexample: the source's median (`np.nanmedian`) keeps
zero-valued pixels.  On the sample `[0, 0, 10π]` it returns 0, while the
claimed zero-sentinel-ignoring median returns 10π; so `value0` is not the
median that ignores pixels equal to the raw zero sentinel. -/
theorem c4_counterexample :
    bridgeValue0 labC4 uC4 2 bC4 = some 0 ∧
    specValue0ZeroSentinel labC4 uC4 2 bC4 = some 10 ∧
    bridgeValue0 labC4 uC4 2 bC4 ≠ specValue0ZeroSentinel labC4 uC4 2 bC4 := by
  refine ⟨by decide, by decide, by decide⟩

/-- C4 amended: `value0`/`value1` are the medians of the phase field over the
pixels inside the endpoint AOI window and that endpoint's own labelled
region, ignoring exactly the NaN entries (zero-valued pixels are included):
each equals the middle of an ascending sort of the surviving sample values
(the mean of the two middles at even length). -/
theorem c4_median_over_window_and_label (lab : Grid ℕ) (u : Grid (Option ℚ))
    (r : ℕ) (b : Bridge) :
    ∃ s0 s1 : List ℚ,
      s0.Perm (((maskedVals lab u (fun y x =>
          aoiWindow lab.length lab.width b.x0 b.y0 r y x &&
            (lab.data y x == b.label0))).filterMap id)) ∧
      s0.Sorted (· ≤ ·) ∧
      bridgeValue0 lab u r b =
        (if s0.length = 0 then none
         else if s0.length % 2 = 1 then s0[s0.length / 2]?
         else some (((s0[s0.length / 2 - 1]?).getD 0 +
             (s0[s0.length / 2]?).getD 0) / 2)) ∧
      s1.Perm (((maskedVals lab u (fun y x =>
          aoiWindow lab.length lab.width b.x1 b.y1 r y x &&
            (lab.data y x == b.label1))).filterMap id)) ∧
      s1.Sorted (· ≤ ·) ∧
      bridgeValue1 lab u r b =
        (if s1.length = 0 then none
         else if s1.length % 2 = 1 then s1[s1.length / 2]?
         else some (((s1[s1.length / 2 - 1]?).getD 0 +
             (s1[s1.length / 2]?).getD 0) / 2)) := by
  refine ⟨sortQ ((bridgeVals0 lab u r b).filterMap id),
    sortQ ((bridgeVals1 lab u r b).filterMap id),
    sortQ_perm _, sortQ_sorted _, rfl,
    sortQ_perm _, sortQ_sorted _, rfl⟩

/-! ### C7 : empty AOI∩label intersections -/

theorem bridgeStep_none_stable (lab : Grid ℕ) (r : ℕ) (u : Grid (Option ℚ))
    (b : Bridge) (y x : ℕ) (h : u.data y x = none) :
    (bridgeStep lab r u b).data y x = none := by
  unfold bridgeStep
  cases bridgeDiff lab u r b with
  | some d =>
    show (if (lab.data y x == b.label1) = true then (u.data y x).map _
      else u.data y x) = none
    rw [h]
    split <;> rfl
  | none =>
    show (if (lab.data y x == b.label1) = true then none else u.data y x) = none
    rw [h]
    split <;> rfl

theorem stitchRun_none_stable (lab : Grid ℕ) (r : ℕ) (bs : List Bridge)
    (u : Grid (Option ℚ)) (y x : ℕ) (h : u.data y x = none) :
    ((stitchRun lab r u bs).1).data y x = none := by
  induction bs generalizing u with
  | nil => exact h
  | cons b rest ih =>
    show ((stitchRun lab r (bridgeStep lab r u b) rest).1).data y x = none
    exact ih _ (bridgeStep_none_stable lab r u b y x h)

/-- C7 amended: when a bridge's AOI∩label sample is empty (or otherwise
NaN), the computed `num_jump` is NaN, the step overwrites the entire
`label1` region with NaN, and the loop then simply continues through every
remaining bridge (one per-bridge record each, no exception); the NaN region
survives to the returned field — that is the only way the failure reaches
the caller. -/
theorem c7_nan_poisons_and_loop_continues (lab : Grid ℕ) (r : ℕ)
    (u : Grid (Option ℚ)) (b : Bridge) (bs : List Bridge)
    (h : bridgeDiff lab u r b = none) :
    ((stitchRun lab r u (b :: bs)).2).length = bs.length + 1 ∧
    ((stitchRun lab r u (b :: bs)).2).head? = some ⟨none, none⟩ ∧
    ∀ y x, lab.data y x = b.label1 →
      ((stitchRun lab r u (b :: bs)).1).data y x = none := by
  have hjump : bridgeJump lab u r b = none := by unfold bridgeJump; rw [h]
  have hstep : bridgeStep lab r u b = poisonRegion lab b.label1 u := by
    unfold bridgeStep; rw [h]
  refine ⟨?_, ?_, ?_⟩
  · rw [stitchRun_cons, List.length_cons, stitchRun_infos_length]
  · rw [stitchRun_cons]
    show some (⟨bridgeDiff lab u r b, bridgeJump lab u r b⟩ : StepInfo) = _
    rw [h, hjump]
  · intro y x hl
    rw [stitchRun_cons]
    show ((stitchRun lab r (bridgeStep lab r u b) bs).1).data y x = none
    refine stitchRun_none_stable lab r bs _ y x ?_
    rw [hstep]
    show (if (lab.data y x == b.label1) = true then none else u.data y x) = none
    rw [if_pos (beq_iff_eq.mpr hl)]

/-- Concrete 1×4 scene for C7: labels `[1, 2, 0, 3]`, phases
`[0, π, 0, 2π]`, first bridge referencing the nonexistent region 9. -/
def labC7 : Grid ℕ :=
  ⟨1, 4, fun _ x => if x = 0 then 1 else if x = 1 then 2 else if x = 3 then 3 else 0⟩

def uC7 : Grid (Option ℚ) :=
  ⟨1, 4, fun _ x => if x = 1 then some 1 else if x = 3 then some 2 else some 0⟩

/-- A bridge whose `label0` region (9) does not exist: its AOI∩label
intersection is empty. -/
def b1C7 : Bridge := ⟨0, 0, 1, 0, 9, 2⟩

def b2C7 : Bridge := ⟨0, 0, 3, 0, 1, 3⟩

/-- C7 counterexample: after the empty intersection at the first bridge
(NaN jump, region 2 poisoned), the pass does NOT stop: the second bridge is
still processed (computing jump −1) and the corrupted region ends as NaN in
the returned array; no error is raised, the loop silently continues. -/
theorem c7_counterexample :
    ((stitchRun labC7 1 uC7 [b1C7, b2C7]).2).map (fun i => i.jump) =
      [none, some (-1)] ∧
    (stitchRun labC7 1 uC7 [b1C7, b2C7]).1.data 0 1 = none ∧
    (stitchRun labC7 1 uC7 [b1C7, b2C7]).1.data 0 3 = some 0 := by
  refine ⟨by decide, by decide, by decide⟩

theorem c7_witness :
    bridgeDiff labC7 uC7 1 b1C7 = none ∧
    (((stitchRun labC7 1 uC7 [b1C7, b2C7]).2).length = 1 + 1 ∧
     ((stitchRun labC7 1 uC7 [b1C7, b2C7]).2).head? = some ⟨none, none⟩ ∧
     ∀ y x, labC7.data y x = b1C7.label1 →
       ((stitchRun labC7 1 uC7 [b1C7, b2C7]).1).data y x = none) := by
  refine ⟨by decide, ?_⟩
  have h : bridgeDiff labC7 uC7 1 b1C7 = none := by decide
  simpa using c7_nan_poisons_and_loop_continues labC7 1 uC7 b1C7 [b2C7] h

/-! ### C5 : re-running the stitcher -/

/-- C5 amended: re-running `unwrap_conn_comp` on its own output, with the
same bridges, label image and radius, recomputes `num_jump = 0` at every
bridge and returns the field unchanged — provided the reference pixel holds
a number, its region is never a bridge's `label1`, the bridge list obeys
the breadth-first ordering discipline (each region corrected exactly once,
parents never re-corrected), and every first-run `diff_value` exists and is
not an exact odd multiple of π (at that half-cycle boundary the re-run
applies a further ±1 cycle instead). -/
theorem c5_second_run_zero_jumps (lab : Grid ℕ) (ry rx radius : ℕ)
    (u0 : Grid (Option ℚ)) (bridges : List Bridge) (rv : ℚ)
    (href : u0.data ry rx = some rv)
    (hreflab : ∀ b ∈ bridges, lab.data ry rx ≠ b.label1)
    (hnodup : (bridges.map (fun b => b.label1)).Nodup)
    (hsep : label0Sep bridges = true)
    (hgood : ∀ info ∈ (unwrap_conn_comp lab (some (ry, rx)) bridges u0 radius).2,
      goodDiff info.diff = true) :
    (unwrap_conn_comp lab (some (ry, rx)) bridges
        (unwrap_conn_comp lab (some (ry, rx)) bridges u0 radius).1 radius).1 =
      (unwrap_conn_comp lab (some (ry, rx)) bridges u0 radius).1 ∧
    ((unwrap_conn_comp lab (some (ry, rx)) bridges
        (unwrap_conn_comp lab (some (ry, rx)) bridges u0 radius).1 radius).2).map
      (fun i => i.jump) = List.replicate bridges.length (some 0) := by
  simp only [unwrap_conn_comp_def] at *
  set r : ℕ := clampRadius lab.length lab.width radius with hr
  set u1 : Grid (Option ℚ) := normalizeRef u0 (some (ry, rx)) with hu1
  set F : Grid (Option ℚ) := (stitchRun lab r u1 bridges).1 with hF
  have hu1ref : u1.data ry rx = some 0 := normalizeRef_data_ref u0 ry rx rv href
  have hFref : F.data ry rx = some 0 := by
    rw [hF, stitchRun_data_untouched lab r bridges u1 ry rx hreflab]
    exact hu1ref
  have hnorm : normalizeRef F (some (ry, rx)) = F :=
    normalizeRef_of_zero F ry rx hFref
  rw [hnorm]
  exact stitchRun_idem lab r bridges u1 hnodup hsep hgood

/-- Concrete 20×20 scene shared by the C5 witness, the C5 counterexample and
the C9 theorems: region 1 on rows 0–9, region 2 on rows 10–19 (20 is the
smallest dimension whose 5% radius clamp is nonzero). -/
def labC5 : Grid ℕ := ⟨20, 20, fun y _ => if y < 10 then 1 else 2⟩

/-- Phase field with a non-boundary offset: 0 on region 1, `(5/2)π` on
region 2. -/
def uC5 : Grid (Option ℚ) :=
  ⟨20, 20, fun y _ => if y < 10 then some 0 else some (5/2)⟩

/-- Phase field sitting exactly on the half-cycle boundary: 0 on region 1,
`−π` on region 2. -/
def uC5x : Grid (Option ℚ) :=
  ⟨20, 20, fun y _ => if y < 10 then some 0 else some (-1)⟩

/-- The bridge between the two regions, endpoints at `(9,5)` and `(10,5)`. -/
def bC5 : Bridge := ⟨5, 9, 5, 10, 1, 2⟩

theorem c5_witness :
    uC5.data 0 0 = some 0 ∧
    (∀ b ∈ [bC5], labC5.data 0 0 ≠ b.label1) ∧
    ([bC5].map (fun b => b.label1)).Nodup ∧
    label0Sep [bC5] = true ∧
    (∀ info ∈ (unwrap_conn_comp labC5 (some (0, 0)) [bC5] uC5 1).2,
      goodDiff info.diff = true) ∧
    ((unwrap_conn_comp labC5 (some (0, 0)) [bC5]
        (unwrap_conn_comp labC5 (some (0, 0)) [bC5] uC5 1).1 1).1 =
      (unwrap_conn_comp labC5 (some (0, 0)) [bC5] uC5 1).1 ∧
    ((unwrap_conn_comp labC5 (some (0, 0)) [bC5]
        (unwrap_conn_comp labC5 (some (0, 0)) [bC5] uC5 1).1 1).2).map
      (fun i => i.jump) = List.replicate ([bC5].length) (some 0)) :=
  ⟨by decide, by decide, by decide, by decide, by decide,
   c5_second_run_zero_jumps labC5 0 0 1 uC5 [bC5] 0
     (by decide) (by decide) (by decide) (by decide) (by decide)⟩

/-- C5 counterexample: on an already-stitched field the re-run is NOT always
zero-jump.  Starting from a −π offset, the first run computes jump +1
(landing the region exactly one half cycle high), and the second run then
computes jump −1 ≠ 0: at the exact half-cycle boundary the stitcher
oscillates instead of being idempotent. -/
theorem c5_counterexample :
    ((unwrap_conn_comp labC5 (some (0, 0)) [bC5] uC5x 1).2).map (fun i => i.jump) =
      [some 1] ∧
    ((unwrap_conn_comp labC5 (some (0, 0)) [bC5]
        (unwrap_conn_comp labC5 (some (0, 0)) [bC5] uC5x 1).1 1).2).map
      (fun i => i.jump) = [some (-1)] := by
  refine ⟨by decide, by decide⟩

/-! ### C9 : what the caller's array holds afterwards -/

/-- The caller-visible frame of a call `cc.unwrap_conn_comp(unw, ...)`.
Array objects live on a heap of references; the callee's first statement
`unw = np.array(unw, dtype=np.float32)` allocates a fresh copy (numpy's
`np.array` copies its input), every subsequent in-place update hits that
copy, and the function returns the new array at a fresh reference.  The
argument reference is never written through. -/
def unwrap_conn_comp_call (heap : ℕ → Grid (Option ℚ)) (argRef outRef : ℕ)
    (lab : Grid ℕ) (refYX : Option (ℕ × ℕ)) (bridges : List Bridge)
    (radius : ℕ) : (ℕ → Grid (Option ℚ)) × ℕ :=
  (fun a => if a = outRef
    then (unwrap_conn_comp lab refYX bridges (heap argRef) radius).1
    else heap a,
   outRef)

/-- C9 amended: `unwrap_conn_comp` does not mutate the caller's phase-field
array: it copies the input, corrects the copy region by region, and returns
the corrected field as a new array; the array passed in is left exactly as
it was. -/
theorem c9_caller_array_unchanged (heap : ℕ → Grid (Option ℚ))
    (argRef outRef : ℕ) (lab : Grid ℕ) (refYX : Option (ℕ × ℕ))
    (bridges : List Bridge) (radius : ℕ) (h : argRef ≠ outRef) :
    ((unwrap_conn_comp_call heap argRef outRef lab refYX bridges radius).1)
        argRef = heap argRef ∧
    ((unwrap_conn_comp_call heap argRef outRef lab refYX bridges radius).1)
        outRef = (unwrap_conn_comp lab refYX bridges (heap argRef) radius).1 ∧
    (unwrap_conn_comp_call heap argRef outRef lab refYX bridges radius).2 =
      outRef := by
  refine ⟨?_, ?_, rfl⟩
  · show (if argRef = outRef then _ else heap argRef) = heap argRef
    rw [if_neg h]
  · show (if outRef = outRef then _ else heap outRef) = _
    rw [if_pos rfl]

/-- Heap for the C9 counterexample: the caller's array `uC5` lives at
reference 0. -/
def heapC9 : ℕ → Grid (Option ℚ) :=
  fun a => if a = 0 then uC5 else ⟨0, 0, fun _ _ => none⟩

/-- C9 counterexample: after the stitching pass the caller's array (ref 0)
still holds the uncorrected value `(5/2)π` at pixel (10,5) while the
corrected value `(1/2)π` sits only in the freshly returned array (ref 1):
the pass does not mutate the caller-supplied array in place, so the object
passed in does not hold the corrected phase values. -/
theorem c9_counterexample :
    ((unwrap_conn_comp_call heapC9 0 1 labC5 (some (0, 0)) [bC5] 1).1 0).data 10 5 =
      some (5/2) ∧
    ((unwrap_conn_comp_call heapC9 0 1 labC5 (some (0, 0)) [bC5] 1).1 1).data 10 5 =
      some (1/2) ∧
    some ((5 : ℚ)/2) ≠ some ((1 : ℚ)/2) := by
  refine ⟨by decide, by decide, by decide⟩

theorem c9_witness :
    (0 : ℕ) ≠ 1 ∧
    (((unwrap_conn_comp_call heapC9 0 1 labC5 none [] 0).1) 0 = heapC9 0 ∧
     ((unwrap_conn_comp_call heapC9 0 1 labC5 none [] 0).1) 1 =
       (unwrap_conn_comp labC5 none [] (heapC9 0) 0).1 ∧
     (unwrap_conn_comp_call heapC9 0 1 labC5 none [] 0).2 = 1) :=
  ⟨by decide, c9_caller_array_unchanged heapC9 0 1 labC5 none [] 0 (by decide)⟩

/-! ### C8 : input validation in the constructor -/

/-- The caller-visible description of a Python object passed as `conncomp`:
the defining module of its type (`type(conncomp).__module__`), its `shape`
tuple, and whether its dtype is boolean/integer. -/
structure NpDesc where
  module : String
  shape : List ℕ
  dtypeIsBoolOrInt : Bool

/-- The state `__init__` builds. -/
structure CCInit where
  length : ℕ
  width : ℕ
  refYX : Option (ℕ × ℕ)
deriving DecidableEq

/-- Model of `connectComponent.__init__(conncomp, metadata)` (lines 40-54):
the only explicit validation is `type(conncomp).__module__ != np.__name__`
(raise ValueError otherwise); then `self.length, self.width =
conncomp.shape` succeeds exactly when the shape tuple has two entries
(any other rank raises an unpacking ValueError).  The dtype is never
inspected.  `REF_Y`/`REF_X` presence in the metadata is the `refYX`
option. -/
def connectComponent_init (conncomp : NpDesc) (refYX : Option (ℕ × ℕ)) :
    Except String CCInit :=
  if conncomp.module ≠ "numpy" then
    Except.error ("ValueError: Input conncomp is not np.ndarray")
  else
    match conncomp.shape with
    | [l, w] => Except.ok ⟨l, w, refYX⟩
    | _ => Except.error ("ValueError: shape unpacking failed")

/-- C8 counterexample: a 2D float numpy array — which is not of
boolean/integer dtype — is accepted without any error, so the system does
not "fail immediately with an InvalidInput error" on such masks. -/
theorem c8_counterexample :
    connectComponent_init ⟨"numpy", [4, 4], false⟩ none =
      Except.ok ⟨4, 4, none⟩ := rfl

/-- C8 amended: the constructor fails exactly when the mask is not a
numpy-module object or its shape is not 2-dimensional; the dtype plays no
role (a float array passes), and no phase-field shape check exists at all in
the constructor — shape mismatches surface only later, inside the stitching
pass itself. -/
theorem c8_validation_is_module_and_rank_only (d : NpDesc)
    (refYX : Option (ℕ × ℕ)) :
    (∃ s, connectComponent_init d refYX = Except.ok s) ↔
      (d.module = "numpy" ∧ ∃ l w, d.shape = [l, w]) := by
  unfold connectComponent_init
  by_cases hm : d.module = "numpy"
  · rw [if_neg (by simpa using hm)]
    cases hs : d.shape with
    | nil => simp [hm]
    | cons a t =>
      cases t with
      | nil => simp [hm]
      | cons b t2 =>
        cases t2 with
        | nil =>
          simp only []
          constructor
          · intro _; exact ⟨hm, a, b, rfl⟩
          · intro _; exact ⟨⟨a, b, refYX⟩, rfl⟩
        | cons c t3 => simp [hm]
  · rw [if_pos (by simpa using hm)]
    constructor
    · rintro ⟨s, hs⟩; cases hs
    · rintro ⟨h1, _⟩; exact absurd h1 hm

/-! ### C10 : the uint8 cast under the boundary image -/

/-- Model of `label_erosion_img = morph.erosion(...).astype(np.uint8)` (line
97): a cast of the eroded int64 label image to an unsigned 8-bit type, i.e.
reduction of every label modulo 256. -/
def castUint8 (g : Grid ℕ) : Grid ℕ :=
  { g with data := fun y x => g.data y x % 256 }

/-- Model of `label_bound = find_boundaries(label_erosion_img, mode='thick')
.astype(np.uint8); label_bound *= label_erosion_img` (source lines 114-115).
The boundary indicator is computed by skimage (external); the claim is about
the stored values, so the indicator is a parameter. -/
def label_bound_img (boundary : ℕ → ℕ → Bool) (labelErosion : Grid ℕ) :
    Grid ℕ :=
  { labelErosion with data := fun y x =>
      (if boundary y x then 1 else 0) * (castUint8 labelErosion).data y x }

/-- C10: since the boundary image is built from the eroded label image after
a uint8 cast, a boundary pixel stores its region's label reduced modulo 256;
it carries the true label exactly when that label is at most 255, and a
label that is an exact multiple of 256 is stored as 0, i.e. background. -/
theorem c10_boundary_labels_mod_256 (boundary : ℕ → ℕ → Bool)
    (labelErosion : Grid ℕ) (y x : ℕ) (hb : boundary y x = true) :
    (label_bound_img boundary labelErosion).data y x =
      labelErosion.data y x % 256 ∧
    ((label_bound_img boundary labelErosion).data y x = labelErosion.data y x ↔
      labelErosion.data y x ≤ 255) ∧
    (labelErosion.data y x % 256 = 0 →
      (label_bound_img boundary labelErosion).data y x = 0) := by
  have hval : (label_bound_img boundary labelErosion).data y x =
      labelErosion.data y x % 256 := by
    show (if boundary y x then 1 else 0) * (labelErosion.data y x % 256) = _
    rw [hb]
    simp
  refine ⟨hval, ?_, ?_⟩
  · rw [hval]
    have := Nat.mod_lt (labelErosion.data y x) (show 0 < 256 by decide)
    constructor
    · intro h; omega
    · intro h; exact Nat.mod_eq_of_lt (by omega)
  · intro h; rw [hval, h]

/-- Eroded label image for the C10 witness, holding the label 300
(300 % 256 = 44). -/
def labelErosionC10 : Grid ℕ := ⟨2, 2, fun _ _ => 300⟩

theorem c10_witness :
    ((fun _ _ => true) : ℕ → ℕ → Bool) 0 0 = true ∧
    ((label_bound_img (fun _ _ => true) labelErosionC10).data 0 0 =
        labelErosionC10.data 0 0 % 256 ∧
      ((label_bound_img (fun _ _ => true) labelErosionC10).data 0 0 =
          labelErosionC10.data 0 0 ↔ labelErosionC10.data 0 0 ≤ 255) ∧
      (labelErosionC10.data 0 0 % 256 = 0 →
        (label_bound_img (fun _ _ => true) labelErosionC10).data 0 0 = 0)) :=
  ⟨rfl, c10_boundary_labels_mod_256 (fun _ _ => true) labelErosionC10 0 0 rfl⟩

/-! ### C6 : small-region removal and dense relabelling -/

/-- Pixel count of label `i` (one bin of `np.bincount(label_img.flatten())`). -/
def labelCount (lab : Grid ℕ) (i : ℕ) : ℕ :=
  ((gridPixels lab.length lab.width).filter
    (fun p => lab.data p.1 p.2 == i)).length

/-- Model of `min_area = min(min_area, label_img.size * 3e-3)` (line 87):
the effective clearing threshold. -/
def areaThreshold (lab : Grid ℕ) (min_area : ℚ) : ℚ :=
  min min_area (((lab.length * lab.width : ℕ) : ℚ) * 3 / 1000)

/-- Whether label `i` survives: `bincount[i] < min_area` flags it for
clearing (strict comparison, source line 88); the background flag is forced
off (line 89), handled directly at the pixels below. -/
def keepLabel (lab : Grid ℕ) (min_area : ℚ) (i : ℕ) : Bool :=
  !(decide ((labelCount lab i : ℚ) < areaThreshold lab min_area))

/-- The surviving labels, in ascending order of their original id. -/
def survivorLabels (lab : Grid ℕ) (num : ℕ) (min_area : ℚ) : List ℕ :=
  ((List.range num).map (fun i => i + 1)).filter (keepLabel lab min_area)

/-- The small-region step of `get_large_label` (source lines 84-93): clear
every label below the threshold to background, then re-label densely.  The
re-labelling is skimage's `measure.label` (external): since whole labels are
cleared, each surviving region stays one connected equal-valued component,
so `measure.label` assigns dense ids 1..N in first-encounter raster order —
which is ascending original-id order, because the original ids were
themselves assigned in first-encounter raster order.  Modelled as the rank
of the surviving label.  Returns the new label image and the new region
count. -/
def get_large_label_small (lab : Grid ℕ) (num : ℕ) (min_area : ℚ) :
    Grid ℕ × ℕ :=
  ({ lab with data := fun y x =>
      if lab.data y x = 0 ∨ keepLabel lab min_area (lab.data y x) = false
      then 0
      else (survivorLabels lab num min_area).indexOf (lab.data y x) + 1 },
   (survivorLabels lab num min_area).length)

theorem keepLabel_false_iff (lab : Grid ℕ) (ma : ℚ) (i : ℕ) :
    keepLabel lab ma i = false ↔ (labelCount lab i : ℚ) < areaThreshold lab ma := by
  simp [keepLabel]

theorem survivorLabels_nodup (lab : Grid ℕ) (num : ℕ) (ma : ℚ) :
    (survivorLabels lab num ma).Nodup :=
  List.Nodup.filter _
    (List.Nodup.map (fun a b h => by omega) (List.nodup_range num))

theorem mem_survivorLabels (lab : Grid ℕ) (num : ℕ) (ma : ℚ) (v : ℕ) :
    v ∈ survivorLabels lab num ma ↔
      (1 ≤ v ∧ v ≤ num ∧ keepLabel lab ma v = true) := by
  unfold survivorLabels
  rw [List.mem_filter]
  simp only [List.mem_map, List.mem_range]
  constructor
  · rintro ⟨⟨i, hi, rfl⟩, hk⟩; exact ⟨by omega, by omega, hk⟩
  · rintro ⟨h1, h2, hk⟩; exact ⟨⟨v - 1, by omega, by omega⟩, hk⟩

theorem indexOf_getElem_of_nodup (l : List ℕ) (h : l.Nodup) (i : ℕ)
    (hi : i < l.length) : l.indexOf (l.get ⟨i, hi⟩) = i := by
  induction l generalizing i with
  | nil => cases hi
  | cons a t ih =>
    cases i with
    | zero => exact List.indexOf_cons_self a t
    | succ i =>
      have hit : i < t.length := by simpa using hi
      have hmem : t.get ⟨i, hit⟩ ∈ t := by
        rw [show t.get ⟨i, hit⟩ = t[i] from rfl]
        exact List.getElem_mem hit
      have hne : a ≠ t.get ⟨i, hit⟩ := by
        intro hcontra
        exact (List.nodup_cons.mp h).1 (hcontra ▸ hmem)
      show (a :: t).indexOf (t.get ⟨i, hit⟩) = i + 1
      rw [List.indexOf_cons_ne t hne, ih (List.nodup_cons.mp h).2 i hit]

theorem labelCount_exists_pixel (lab : Grid ℕ) (v : ℕ)
    (h : labelCount lab v ≠ 0) :
    ∃ y, y < lab.length ∧ ∃ x, x < lab.width ∧ lab.data y x = v := by
  unfold labelCount at h
  have hne : ((gridPixels lab.length lab.width).filter
      (fun p => lab.data p.1 p.2 == v)) ≠ [] := by
    intro hcontra; rw [hcontra] at h; exact h rfl
  obtain ⟨p, hp⟩ := List.exists_mem_of_ne_nil _ hne
  obtain ⟨hmem, hlab⟩ := List.mem_filter.mp hp
  obtain ⟨hy, hx⟩ := mem_gridPixels.mp hmem
  exact ⟨p.1, hy, p.2, hx, beq_iff_eq.mp hlab⟩

/-- C6: for every label image with dense labels at most `num`, the removal
step clears a pixel to background exactly when its label is background or
its pixel count is below `min(min_area, 0.3% of the total pixel count)`;
the surviving regions keep distinct identities; and the new ids are dense:
the nonzero values of the output are exactly 1..N for the returned count N. -/
theorem c6_small_label_removal (lab : Grid ℕ) (num : ℕ) (ma : ℚ)
    (hbound : ∀ y, y < lab.length → ∀ x, x < lab.width → lab.data y x ≤ num)
    (hma : 0 < ma) (hsz : 0 < lab.length * lab.width) :
    (∀ y, y < lab.length → ∀ x, x < lab.width →
      (((get_large_label_small lab num ma).1).data y x = 0 ↔
        (lab.data y x = 0 ∨
          (labelCount lab (lab.data y x) : ℚ) < areaThreshold lab ma))) ∧
    (∀ y, y < lab.length → ∀ x, x < lab.width →
      ∀ y2, y2 < lab.length → ∀ x2, x2 < lab.width →
      ((get_large_label_small lab num ma).1).data y x ≠ 0 →
      ((get_large_label_small lab num ma).1).data y2 x2 ≠ 0 →
      (((get_large_label_small lab num ma).1).data y x =
          ((get_large_label_small lab num ma).1).data y2 x2 ↔
        lab.data y x = lab.data y2 x2)) ∧
    (∀ j, j ≠ 0 →
      ((∃ y, y < lab.length ∧ ∃ x, x < lab.width ∧
          ((get_large_label_small lab num ma).1).data y x = j) ↔
        (1 ≤ j ∧ j ≤ (get_large_label_small lab num ma).2))) := by
  have hthr : 0 < areaThreshold lab ma := by
    refine lt_min_iff.mpr ⟨hma, ?_⟩
    have : (0 : ℚ) < ((lab.length * lab.width : ℕ) : ℚ) := by
      exact_mod_cast hsz
    positivity
  have hdata : ∀ y x, ((get_large_label_small lab num ma).1).data y x =
      (if lab.data y x = 0 ∨ keepLabel lab ma (lab.data y x) = false then 0
       else (survivorLabels lab num ma).indexOf (lab.data y x) + 1) :=
    fun y x => rfl
  refine ⟨?_, ?_, ?_⟩
  · intro y hy x hx
    rw [hdata y x]
    by_cases hc : lab.data y x = 0 ∨ keepLabel lab ma (lab.data y x) = false
    · rw [if_pos hc]
      simp only [true_iff]
      rcases hc with h0 | hk
      · exact Or.inl h0
      · exact Or.inr ((keepLabel_false_iff lab ma _).mp hk)
    · rw [if_neg hc]
      push_neg at hc
      constructor
      · intro h; cases h
      · intro h
        rcases h with h0 | hlt
        · exact absurd h0 hc.1
        · exact absurd ((keepLabel_false_iff lab ma _).mpr hlt) hc.2
  · intro y hy x hx y2 hy2 x2 hx2 hnz hnz2
    rw [hdata y x] at hnz ⊢
    rw [hdata y2 x2] at hnz2 ⊢
    by_cases hc : lab.data y x = 0 ∨ keepLabel lab ma (lab.data y x) = false
    · rw [if_pos hc] at hnz; exact absurd rfl hnz
    · by_cases hc2 : lab.data y2 x2 = 0 ∨
          keepLabel lab ma (lab.data y2 x2) = false
      · rw [if_pos hc2] at hnz2; exact absurd rfl hnz2
      · rw [if_neg hc, if_neg hc2]
        push_neg at hc hc2
        have hm1 : lab.data y x ∈ survivorLabels lab num ma := by
          rw [mem_survivorLabels]
          exact ⟨by omega, hbound y hy x hx, Bool.ne_false_iff.mp hc.2⟩
        have hm2 : lab.data y2 x2 ∈ survivorLabels lab num ma := by
          rw [mem_survivorLabels]
          exact ⟨by omega, hbound y2 hy2 x2 hx2, Bool.ne_false_iff.mp hc2.2⟩
        constructor
        · intro h
          exact (List.indexOf_inj hm1 hm2).mp (by omega)
        · intro h
          rw [h]
  · intro j hj
    constructor
    · rintro ⟨y, hy, x, hx, hout⟩
      rw [hdata y x] at hout
      by_cases hc : lab.data y x = 0 ∨ keepLabel lab ma (lab.data y x) = false
      · rw [if_pos hc] at hout; exact absurd hout.symm hj
      · rw [if_neg hc] at hout
        push_neg at hc
        have hm : lab.data y x ∈ survivorLabels lab num ma := by
          rw [mem_survivorLabels]
          exact ⟨by omega, hbound y hy x hx, Bool.ne_false_iff.mp hc.2⟩
        have hlt : (survivorLabels lab num ma).indexOf (lab.data y x) <
            (survivorLabels lab num ma).length :=
          List.indexOf_lt_length.mpr hm
        show 1 ≤ j ∧ j ≤ (survivorLabels lab num ma).length
        omega
    · rintro ⟨h1, h2⟩
      have hlen : (get_large_label_small lab num ma).2 =
          (survivorLabels lab num ma).length := rfl
      have hi : j - 1 < (survivorLabels lab num ma).length := by omega
      set v : ℕ := (survivorLabels lab num ma).get ⟨j - 1, hi⟩ with hv
      have hmv : v ∈ survivorLabels lab num ma := by
        rw [hv]
        show (survivorLabels lab num ma)[j-1] ∈ _
        exact List.getElem_mem hi
      obtain ⟨hv1, hvnum, hvkeep⟩ := (mem_survivorLabels lab num ma v).mp hmv
      have hcount : labelCount lab v ≠ 0 := by
        intro hzero
        have : ¬((labelCount lab v : ℚ) < areaThreshold lab ma) := by
          simpa [keepLabel] using hvkeep
        rw [hzero] at this
        exact this (by exact_mod_cast hthr)
      obtain ⟨y, hy, x, hx, hlab⟩ := labelCount_exists_pixel lab v hcount
      refine ⟨y, hy, x, hx, ?_⟩
      rw [hdata y x, hlab, if_neg ?_]
      · rw [indexOf_getElem_of_nodup _ (survivorLabels_nodup lab num ma)]
        omega
      · push_neg
        refine ⟨by omega, ?_⟩
        rw [hvkeep]
        exact fun hcontra => nomatch hcontra

/-- Concrete 2×3 label image for the C6 witness: two surviving regions. -/
def labC6 : Grid ℕ :=
  ⟨2, 3, fun y x => if y = 0 ∧ x ≤ 1 then 1 else if y = 1 ∧ x = 0 then 2 else 0⟩

theorem c6_witness :
    (∀ y, y < labC6.length → ∀ x, x < labC6.width → labC6.data y x ≤ 2) ∧
    ((0 : ℚ) < 1) ∧ (0 < labC6.length * labC6.width) ∧
    (∀ j, j ≠ 0 →
      ((∃ y, y < labC6.length ∧ ∃ x, x < labC6.width ∧
          ((get_large_label_small labC6 2 1).1).data y x = j) ↔
        (1 ≤ j ∧ j ≤ (get_large_label_small labC6 2 1).2))) :=
  ⟨by decide, by decide, by decide,
   (c6_small_label_removal labC6 2 1 (by decide) (by decide) (by decide)).2.2⟩

/-! ### C2 : the breadth-first bridge list -/

/-- First components (the visited nodes) of a BFS (node, predecessor) list. -/
def nodesOf (l : List (ℕ × ℕ)) : List ℕ := l.map Prod.fst

/-- Executable model of scipy's `breadth_first_order` (external collaborator
of `find_mst_bridge`): FIFO queue of (node, predecessor) pairs, nodes marked
seen when enqueued, neighbours discovered in index order, output in
processing order.  Fuel-based recursion; fuel `n` suffices since every
enqueued node is distinct. -/
def bfsRun (adj : ℕ → List ℕ) : ℕ → List (ℕ × ℕ) → List (ℕ × ℕ) → List (ℕ × ℕ)
  | 0, _, out => out
  | _ + 1, [], out => out
  | fuel + 1, (v, p) :: qs, out =>
    bfsRun adj fuel
      (qs ++ ((adj v).filter
          (fun w => decide (w ∉ nodesOf out ++ nodesOf ((v, p) :: qs)))).map
        (fun w => (w, v)))
      (out ++ [(v, p)])

/-- Model of `breadth_first_order(graph, i_start=root, directed=False)`: visit order
with predecessors, rooted at `root`, over at most `n` nodes. -/
def breadth_first_order (adj : ℕ → List ℕ) (root n : ℕ) : List (ℕ × ℕ) :=
  bfsRun adj n [(root, root)] []

theorem bfsRun_succ_cons (adj : ℕ → List ℕ) (fuel : ℕ) (v p : ℕ)
    (qs out : List (ℕ × ℕ)) :
    bfsRun adj (fuel + 1) ((v, p) :: qs) out =
      bfsRun adj fuel
        (qs ++ ((adj v).filter
            (fun w => decide (w ∉ nodesOf out ++ nodesOf ((v, p) :: qs)))).map
          (fun w => (w, v)))
        (out ++ [(v, p)]) := rfl

/-- Every entry's predecessor already occurs among the nodes of the strictly
earlier entries; the start entry `(root, root)` sits at position 0. -/
def ChronOrdered (root : ℕ) (l : List (ℕ × ℕ)) : Prop :=
  ∀ k, (hk : k < l.length) →
    (l.get ⟨k, hk⟩).2 ∈ nodesOf (l.take k) ∨
      (l.get ⟨k, hk⟩ = (root, root) ∧ k = 0)

theorem nodesOf_append (a b : List (ℕ × ℕ)) :
    nodesOf (a ++ b) = nodesOf a ++ nodesOf b := List.map_append _ a b

theorem chronOrdered_append (root : ℕ) (out : List (ℕ × ℕ)) (vp : ℕ × ℕ)
    (hc : ChronOrdered root out)
    (hp : vp.2 ∈ nodesOf out ∨ (vp = (root, root) ∧ out = [])) :
    ChronOrdered root (out ++ [vp]) := by
  intro k hk
  have hklen : k < out.length + 1 := by
    simpa [List.length_append] using hk
  by_cases hlt : k < out.length
  · have hget : (out ++ [vp]).get ⟨k, hk⟩ = out.get ⟨k, hlt⟩ := by
      rw [show (out ++ [vp]).get ⟨k, hk⟩ = (out ++ [vp])[k] from rfl,
        List.getElem_append_left hlt]
      rfl
    have htake : (out ++ [vp]).take k = out.take k :=
      List.take_append_of_le_length (le_of_lt hlt)
    rw [hget, htake]
    rcases hc k hlt with h | h
    · exact Or.inl h
    · exact Or.inr h
  · have hke : k = out.length := by omega
    subst hke
    have hget : (out ++ [vp]).get ⟨out.length, hk⟩ = vp := by
      rw [show (out ++ [vp]).get ⟨out.length, hk⟩ = (out ++ [vp])[out.length]
        from rfl, List.getElem_append_right (le_refl out.length)]
      simp
    have htake : (out ++ [vp]).take out.length = out :=
      List.take_left out [vp]
    rw [hget, htake]
    rcases hp with h | ⟨hvp, hout⟩
    · exact Or.inl h
    · exact Or.inr ⟨hvp, by rw [hout]; rfl⟩

theorem queue_empty_of_budget (n : ℕ) (queue out : List (ℕ × ℕ))
    (hnodup : (nodesOf out ++ nodesOf queue).Nodup)
    (hlt : ∀ v ∈ nodesOf out ++ nodesOf queue, v < n)
    (hlen : n ≤ out.length) : queue = [] := by
  rcases List.nodup_append.mp hnodup with ⟨hnout, hnq, hdisj⟩
  have houtlen : (nodesOf out).length = out.length := List.length_map _ _
  have hsub : nodesOf out ⊆ List.range n := by
    intro v hv
    exact List.mem_range.mpr (hlt v (List.mem_append_left _ hv))
  have hle : (nodesOf out).length ≤ n := by
    have := (List.subperm_of_subset hnout hsub).length_le
    simpa using this
  have hcard : (nodesOf out).toFinset.card = n := by
    rw [List.toFinset_card_of_nodup hnout]
    omega
  have hfins : (nodesOf out).toFinset = Finset.range n := by
    refine Finset.eq_of_subset_of_card_le ?_ ?_
    · intro v hv
      rw [List.mem_toFinset] at hv
      exact Finset.mem_range.mpr (hlt v (List.mem_append_left _ hv))
    · rw [hcard, Finset.card_range]
  cases queue with
  | nil => rfl
  | cons vp qs =>
    exfalso
    have hv1 : vp.1 ∈ nodesOf (vp :: qs) := List.mem_cons_self _ _
    have hvn : vp.1 < n := hlt vp.1 (List.mem_append_right _ hv1)
    have : vp.1 ∈ (nodesOf out).toFinset := by
      rw [hfins]; exact Finset.mem_range.mpr hvn
    rw [List.mem_toFinset] at this
    exact hdisj this hv1

theorem bfsRun_master (adj : ℕ → List ℕ) (n root : ℕ)
    (Ha : ∀ v w, w ∈ adj v → w < n) (Hb : ∀ v, (adj v).Nodup) :
    ∀ fuel queue out,
    (nodesOf out ++ nodesOf queue).Nodup →
    (∀ vp ∈ queue, vp.2 ∈ nodesOf out ∨
      (vp = ((root : ℕ), (root : ℕ)) ∧ out = [] ∧ queue = [(root, root)])) →
    ChronOrdered root out →
    (∀ v ∈ nodesOf out ++ nodesOf queue, v < n) →
    (∀ u ∈ nodesOf out, ∀ w ∈ adj u, w ∈ nodesOf out ++ nodesOf queue) →
    n ≤ fuel + out.length →
    ((nodesOf (bfsRun adj fuel queue out)).Nodup ∧
     ChronOrdered root (bfsRun adj fuel queue out) ∧
     (∀ v ∈ nodesOf (bfsRun adj fuel queue out), v < n) ∧
     (∀ u ∈ nodesOf (bfsRun adj fuel queue out), ∀ w ∈ adj u,
        w ∈ nodesOf (bfsRun adj fuel queue out)) ∧
     (∀ v ∈ nodesOf out ++ nodesOf queue,
        v ∈ nodesOf (bfsRun adj fuel queue out))) := by
  intro fuel
  induction fuel with
  | zero =>
    intro queue out hnodup hqpred hchron hlt hclosed hbudget
    have hq : queue = [] :=
      queue_empty_of_budget n queue out hnodup hlt (by omega)
    subst hq
    rw [show nodesOf ([] : List (ℕ × ℕ)) = [] from rfl, List.append_nil]
      at hnodup hlt hclosed
    exact ⟨hnodup, hchron, hlt, hclosed, fun v hv => by
      rw [show nodesOf ([] : List (ℕ × ℕ)) = [] from rfl, List.append_nil] at hv
      exact hv⟩
  | succ fuel ih =>
    intro queue out hnodup hqpred hchron hlt hclosed hbudget
    cases queue with
    | nil =>
      rw [show nodesOf ([] : List (ℕ × ℕ)) = [] from rfl, List.append_nil]
        at hnodup hlt hclosed
      exact ⟨hnodup, hchron, hlt, hclosed, fun v hv => by
        rw [show nodesOf ([] : List (ℕ × ℕ)) = [] from rfl, List.append_nil] at hv
        exact hv⟩
    | cons vp qs =>
      obtain ⟨v, p⟩ := vp
      rw [bfsRun_succ_cons]
      set seen : List ℕ := nodesOf out ++ nodesOf ((v, p) :: qs) with hseen
      set nbrs : List ℕ := (adj v).filter (fun w => decide (w ∉ seen)) with hnbrs
      have hnbrs_mem : ∀ w, w ∈ nbrs ↔ (w ∈ adj v ∧ w ∉ seen) := by
        intro w
        rw [hnbrs, List.mem_filter, decide_eq_true_iff]
      have hseen_eq : seen = (nodesOf out ++ [v]) ++ nodesOf qs := by
        rw [hseen, List.append_assoc]
        rfl
      have hout' : nodesOf (out ++ [(v, p)]) = nodesOf out ++ [v] := by
        rw [nodesOf_append]
        rfl
      have hqueue' : nodesOf (qs ++ nbrs.map (fun w => (w, v))) =
          nodesOf qs ++ nbrs := by
        rw [nodesOf_append]
        congr 1
        show List.map Prod.fst (nbrs.map (fun w => (w, v))) = nbrs
        rw [List.map_map]
        exact List.map_id nbrs
      have hv_seen : v ∈ seen := by
        rw [hseen]
        exact List.mem_append_right _ (List.mem_cons_self _ _)
      have hqs_seen : ∀ a, a ∈ nodesOf qs → a ∈ seen := by
        intro a ha
        rw [hseen]
        refine List.mem_append_right _ ?_
        show a ∈ v :: nodesOf qs
        exact List.mem_cons_of_mem _ ha
      have hout_seen : ∀ a, a ∈ nodesOf out → a ∈ seen := by
        intro a ha
        rw [hseen]
        exact List.mem_append_left _ ha
      have hseen_sub : ∀ a, a ∈ seen →
          a ∈ nodesOf (out ++ [(v, p)]) ++
            nodesOf (qs ++ nbrs.map (fun w => (w, v))) := by
        intro a ha
        rw [hout', hqueue', hseen_eq] at *
        rcases List.mem_append.mp ha with h | h
        · exact List.mem_append_left _ h
        · exact List.mem_append_right _ (List.mem_append_left _ h)
      have hnodup' : (nodesOf (out ++ [(v, p)]) ++
          nodesOf (qs ++ nbrs.map (fun w => (w, v)))).Nodup := by
        rw [hout', hqueue', ← List.append_assoc, ← hseen_eq,
          List.nodup_append]
        refine ⟨by rw [hseen] at hnodup ⊢; exact hnodup,
          List.Nodup.filter _ (Hb v), ?_⟩
        intro a ha hanbrs
        exact ((hnbrs_mem a).mp hanbrs).2 ha
      have hqpred' : ∀ vp2 ∈ qs ++ nbrs.map (fun w => (w, v)),
          vp2.2 ∈ nodesOf (out ++ [(v, p)]) ∨
            (vp2 = ((root : ℕ), (root : ℕ)) ∧ out ++ [(v, p)] = [] ∧
              qs ++ nbrs.map (fun w => (w, v)) = [(root, root)]) := by
        intro vp2 hvp2
        rcases List.mem_append.mp hvp2 with h | h
        · rcases hqpred vp2 (List.mem_cons_of_mem _ h) with hpred | ⟨_, _, hsingle⟩
          · refine Or.inl ?_
            rw [hout']
            exact List.mem_append_left _ hpred
          · exfalso
            have : qs = [] := by
              have := congrArg List.tail hsingle
              simpa using this
            rw [this] at h
            cases h
        · obtain ⟨w, hw, rfl⟩ := List.mem_map.mp h
          refine Or.inl ?_
          rw [hout']
          exact List.mem_append_right _ (List.mem_singleton.mpr rfl)
      have hchron' : ChronOrdered root (out ++ [(v, p)]) := by
        refine chronOrdered_append root out (v, p) hchron ?_
        rcases hqpred (v, p) (List.mem_cons_self _ _) with h | ⟨h1, h2, _⟩
        · exact Or.inl h
        · exact Or.inr ⟨h1, h2⟩
      have hlt' : ∀ a ∈ nodesOf (out ++ [(v, p)]) ++
          nodesOf (qs ++ nbrs.map (fun w => (w, v))), a < n := by
        intro a ha
        rw [hout', hqueue'] at ha
        rcases List.mem_append.mp ha with h | h
        · rcases List.mem_append.mp h with h2 | h2
          · exact hlt a (hout_seen a h2)
          · rw [List.mem_singleton.mp h2]
            exact hlt v hv_seen
        · rcases List.mem_append.mp h with h2 | h2
          · exact hlt a (hqs_seen a h2)
          · exact Ha v a ((hnbrs_mem a).mp h2).1
      have hclosed' : ∀ u ∈ nodesOf (out ++ [(v, p)]), ∀ w ∈ adj u,
          w ∈ nodesOf (out ++ [(v, p)]) ++
            nodesOf (qs ++ nbrs.map (fun w => (w, v))) := by
        intro u hu w hw
        rw [hout'] at hu
        rcases List.mem_append.mp hu with hu2 | hu2
        · exact hseen_sub w (hclosed u hu2 w hw)
        · rw [List.mem_singleton.mp hu2] at hw
          by_cases hws : w ∈ seen
          · exact hseen_sub w hws
          · rw [hout', hqueue']
            exact List.mem_append_right _
              (List.mem_append_right _ ((hnbrs_mem w).mpr ⟨hw, hws⟩))
      have hbudget' : n ≤ fuel + (out ++ [(v, p)]).length := by
        rw [List.length_append]
        simpa using (by omega : n ≤ fuel + (out.length + 1))
      obtain ⟨c1, c2, c3, c4, c5⟩ :=
        ih (qs ++ nbrs.map (fun w => (w, v))) (out ++ [(v, p)])
          hnodup' hqpred' hchron' hlt' hclosed' hbudget'
      refine ⟨c1, c2, c3, c4, ?_⟩
      intro a ha
      exact c5 a (hseen_sub a (by rw [hseen]; exact ha))

/-- Reachability in the undirected graph described by `adj`. -/
inductive Reach (adj : ℕ → List ℕ) (s : ℕ) : ℕ → Prop
  | refl : Reach adj s s
  | tail : ∀ {u w}, Reach adj s u → w ∈ adj u → Reach adj s w

theorem reach_mem_of_closed (adj : ℕ → List ℕ) (s : ℕ) (S : List ℕ)
    (hroot : s ∈ S) (hclosed : ∀ u ∈ S, ∀ w ∈ adj u, w ∈ S) :
    ∀ v, Reach adj s v → v ∈ S := by
  intro v hr
  induction hr with
  | refl => exact hroot
  | tail hru hw ih => exact hclosed _ ih _ hw

theorem breadth_first_order_spec (adj : ℕ → List ℕ) (root n : ℕ)
    (hroot : root < n)
    (Ha : ∀ v w, w ∈ adj v → w < n) (Hb : ∀ v, (adj v).Nodup)
    (hconn : ∀ v, v < n → Reach adj root v) :
    (breadth_first_order adj root n).length = n ∧
    ChronOrdered root (breadth_first_order adj root n) ∧
    (nodesOf (breadth_first_order adj root n)).Nodup ∧
    (∀ v ∈ nodesOf (breadth_first_order adj root n), v < n) ∧
    (∀ v, v < n → v ∈ nodesOf (breadth_first_order adj root n)) := by
  have hinit := bfsRun_master adj n root Ha Hb n [(root, root)] []
  have hnodup0 : (nodesOf ([] : List (ℕ × ℕ)) ++
      nodesOf [((root : ℕ), (root : ℕ))]).Nodup := by
    show ([] ++ [root]).Nodup
    simp
  have hqpred0 : ∀ vp ∈ [((root : ℕ), (root : ℕ))],
      vp.2 ∈ nodesOf ([] : List (ℕ × ℕ)) ∨
        (vp = ((root : ℕ), (root : ℕ)) ∧ ([] : List (ℕ × ℕ)) = [] ∧
          [((root : ℕ), (root : ℕ))] = [(root, root)]) := by
    intro vp hvp
    rw [List.mem_singleton.mp hvp]
    exact Or.inr ⟨rfl, rfl, rfl⟩
  have hchron0 : ChronOrdered root ([] : List (ℕ × ℕ)) := by
    intro k hk
    cases hk
  have hlt0 : ∀ v ∈ nodesOf ([] : List (ℕ × ℕ)) ++
      nodesOf [((root : ℕ), (root : ℕ))], v < n := by
    intro v hv
    have : v ∈ [root] := by simpa [nodesOf] using hv
    rw [List.mem_singleton.mp this]
    exact hroot
  have hclosed0 : ∀ u ∈ nodesOf ([] : List (ℕ × ℕ)), ∀ w ∈ adj u,
      w ∈ nodesOf ([] : List (ℕ × ℕ)) ++
        nodesOf [((root : ℕ), (root : ℕ))] := by
    intro u hu
    cases hu
  obtain ⟨c1, c2, c3, c4, c5⟩ := hinit hnodup0 hqpred0 hchron0 hlt0 hclosed0
    (by simp)
  have hrootmem : root ∈ nodesOf (breadth_first_order adj root n) := by
    refine c5 root ?_
    show root ∈ [] ++ [root]
    simp
  have hall : ∀ v, v < n → v ∈ nodesOf (breadth_first_order adj root n) := by
    intro v hv
    exact reach_mem_of_closed adj root _ hrootmem c4 v (hconn v hv)
  have hlen : (breadth_first_order adj root n).length = n := by
    have hlen1 : (nodesOf (breadth_first_order adj root n)).length ≤ n := by
      have hsub : nodesOf (breadth_first_order adj root n) ⊆ List.range n := by
        intro a ha
        exact List.mem_range.mpr (c3 a ha)
      have := (List.subperm_of_subset c1 hsub).length_le
      simpa using this
    have hlen2 : n ≤ (nodesOf (breadth_first_order adj root n)).length := by
      have hsub : List.range n ⊆ nodesOf (breadth_first_order adj root n) := by
        intro a ha
        exact hall a (List.mem_range.mp ha)
      have := (List.subperm_of_subset (List.nodup_range n) hsub).length_le
      simpa using this
    have : (nodesOf (breadth_first_order adj root n)).length =
        (breadth_first_order adj root n).length := List.length_map _ _
    omega
  exact ⟨hlen, c2, c1, c3, hall⟩

/-- Adjacency of the (undirected) edge list over nodes `0..n-1`, neighbours
in CSR index order. -/
def edgeAdj (n : ℕ) (edges : List (ℕ × ℕ)) (v : ℕ) : List ℕ :=
  (List.range n).filter (fun w =>
    edges.any (fun e => (e.1 == v && e.2 == w) || (e.1 == w && e.2 == v)))

theorem edgeAdj_lt (n : ℕ) (edges : List (ℕ × ℕ)) :
    ∀ v w, w ∈ edgeAdj n edges v → w < n := by
  intro v w hw
  exact List.mem_range.mp (List.mem_filter.mp hw).1

theorem edgeAdj_nodup (n : ℕ) (edges : List (ℕ × ℕ)) :
    ∀ v, (edgeAdj n edges v).Nodup :=
  fun _ => List.Nodup.filter _ (List.nodup_range n)

/-- The record `get_all_bridge` stores for one region pair: the two 1-based
labels and the closest boundary-pixel pair `(y, x)` on each side. -/
structure ConnRec where
  n0 : ℕ
  yx0 : ℕ × ℕ
  n1 : ℕ
  yx1 : ℕ × ℕ

/-- Model of `itertools.combinations(range(n), 2)`: the 0-based pairs `i < j < n`. -/
def pairsUnder (n : ℕ) : List (ℕ × ℕ) :=
  (List.range n).flatMap (fun i => (List.range n).filterMap
    (fun j => if i < j then some (i, j) else none))

/-- The key `'{}{}'.format(n0, n1)` under which `get_all_bridge` stores the
pair record: decimal strings of the 1-based labels, concatenated. -/
def pairKey (i j : ℕ) : String := toString (i + 1) ++ toString (j + 1)

/-- Model of the `connDict` of `get_all_bridge` (lines 127-143): one record per
0-based pair `i < j`, keyed by `pairKey`, holding the closest endpoint pair
returned by the cKDTree query — the external nearest-pair oracle `ep`,
giving `((y_i, x_i), (y_j, x_j))`. -/
def buildConnDict (n : ℕ) (ep : ℕ → ℕ → ((ℕ × ℕ) × (ℕ × ℕ))) :
    List (String × ConnRec) :=
  (pairsUnder n).map (fun ij =>
    (pairKey ij.1 ij.2,
     ⟨ij.1 + 1, (ep ij.1 ij.2).1, ij.2 + 1, (ep ij.1 ij.2).2⟩))

/-- Python's `str < str`: codepoint-wise lexicographic comparison. -/
def charListLt : List Char → List Char → Bool
  | [], [] => false
  | [], _ :: _ => true
  | _ :: _, [] => false
  | c :: cs, d :: ds =>
    if c < d then true else if d < c then false else charListLt cs ds

/-- Model of `nn = sorted([str(n0), str(n1)])` then `'{}{}'.format(nn[0], nn[1])`
(source lines 160-161): the lookup key is the LEXICOGRAPHIC sort of the two
decimal label strings, concatenated. -/
def sortedPairKey (a b : ℕ) : String :=
  if charListLt (toString b).data (toString a).data
  then toString b ++ toString a
  else toString a ++ toString b

/-- Model of `conn[str(lbl)]` inside `find_mst_bridge` (lines 162-163): fetch
the label's endpoint from the record by its string name; a missing name is a
Python KeyError (`none`). -/
def recCoord (cr : ConnRec) (lbl : ℕ) : Option (ℕ × ℕ) :=
  if toString lbl = toString cr.n0 then some cr.yx0
  else if toString lbl = toString cr.n1 then some cr.yx1
  else none

/-- Build one Bridge from a BFS (parent, child) pair: look the record up
under the string-sorted key, then fetch both endpoints by label name.  Any
failed lookup is a KeyError (`none`). -/
def mkBridge (connDict : List (String × ConnRec)) (n0 n1 : ℕ) :
    Option Bridge :=
  match connDict.lookup (sortedPairKey n0 n1) with
  | none => none
  | some cr =>
    match recCoord cr n0, recCoord cr n1 with
    | some yx0, some yx1 => some ⟨yx0.2, yx0.1, yx1.2, yx1.1, n0, n1⟩
    | _, _ => none

/-- Model of `find_mst_bridge` (source lines 146-174): breadth-first order the
minimum spanning tree from the reference node and convert each
(parent, child) pair into a Bridge via the string-keyed `connDict` lookups.
The external scipy MST routine is abstracted by the spanning tree
`treeEdges` it returns on the (complete, positive) distance graph. -/
def find_mst_bridge (n : ℕ) (ep : ℕ → ℕ → ((ℕ × ℕ) × (ℕ × ℕ)))
    (treeEdges : List (ℕ × ℕ)) (labelRef : ℕ) : Option (List Bridge) :=
  ((breadth_first_order (edgeAdj n treeEdges) (labelRef - 1) n).drop 1).mapM
    (fun vp => mkBridge (buildConnDict n ep) (vp.2 + 1) (vp.1 + 1))

/-- Star spanning tree over 10 nodes, centred at node 1 (label 2) — an MST
of, e.g., the distance graph where label 2's boundary is near every other
region and all other pairs are far apart. -/
def starEdgesC2 : List (ℕ × ℕ) :=
  [(1, 0), (1, 2), (1, 3), (1, 4), (1, 5), (1, 6), (1, 7), (1, 8), (1, 9)]

/-- A nearest-pair oracle for the C2 counterexample (values irrelevant). -/
def epC2 : ℕ → ℕ → ((ℕ × ℕ) × (ℕ × ℕ)) := fun i j => ((i, 0), (j, 0))

/-- C2 counterexample: with N = 10 regions and a perfectly valid spanning
tree, `find_mst_bridge` CRASHES instead of producing the bridge list: the
bridge {2, 10} is looked up under `sorted(['2','10'])` = `'102'`, but
`get_all_bridge` stored that pair under `'210'` — a KeyError, because keys
sort lexicographically while they were built in numeric order.  So the
claim fails for distance graphs with N ≥ 10. -/
theorem c2_counterexample :
    ((List.range 10).all (fun v =>
      (nodesOf (breadth_first_order (edgeAdj 10 starEdgesC2) 1 10)).contains v))
        = true ∧
    find_mst_bridge 10 epC2 starEdgesC2 2 = none := by
  refine ⟨by decide, by decide⟩

theorem toString_inj_lt10 : ∀ a, a < 10 → ∀ b, b < 10 →
    ((toString a = toString b) ↔ a = b) := by decide

theorem sortedPairKey_lt10 : ∀ a, a < 10 → ∀ b, b < 10 →
    sortedPairKey a b = toString (min a b) ++ toString (max a b) := by decide

theorem pairKey_inj_lt9 : ∀ i, i < 9 → ∀ j, j < 9 → ∀ i2, i2 < 9 →
    ∀ j2, j2 < 9 → (pairKey i j ≠ pairKey i2 j2) ∨ (i = i2 ∧ j = j2) := by
  decide

theorem mem_pairsUnder (n : ℕ) (p : ℕ × ℕ) :
    p ∈ pairsUnder n ↔ (p.1 < p.2 ∧ p.2 < n) := by
  cases p with
  | mk i j =>
    simp only [pairsUnder, List.mem_flatMap, List.mem_filterMap, List.mem_range]
    constructor
    · rintro ⟨a, ha, b, hb, hab⟩
      by_cases h : a < b
      · rw [if_pos h] at hab
        obtain ⟨rfl, rfl⟩ := Prod.mk.injEq .. ▸ Option.some_inj.mp hab
        exact ⟨h, hb⟩
      · rw [if_neg h] at hab
        cases hab
    · rintro ⟨hij, hjn⟩
      exact ⟨i, by omega, j, hjn, by rw [if_pos hij]⟩

theorem lookup_map_key (l : List (ℕ × ℕ)) (f : ℕ × ℕ → String)
    (g : ℕ × ℕ → ConnRec) (p : ℕ × ℕ) (hmem : p ∈ l)
    (hinj : ∀ q ∈ l, f q = f p → q = p) :
    (l.map (fun q => (f q, g q))).lookup (f p) = some (g p) := by
  induction l with
  | nil => cases hmem
  | cons h t ih =>
    rw [List.map_cons]
    by_cases hfh : f p = f h
    · have hp : h = p := hinj h (List.mem_cons_self h t) hfh.symm
      subst hp
      show (match f h == f h with
        | true => some (g h)
        | false => (t.map (fun q => (f q, g q))).lookup (f h)) = some (g h)
      rw [beq_self_eq_true]
    · have hmem2 : p ∈ t := by
        rcases List.mem_cons.mp hmem with rfl | h2
        · exact absurd rfl hfh
        · exact h2
      show (match f p == f h with
        | true => some (g h)
        | false => (t.map (fun q => (f q, g q))).lookup (f p)) = some (g p)
      rw [show (f p == f h) = false from beq_eq_false_iff_ne.mpr hfh]
      exact ih hmem2 (fun q hq => hinj q (List.mem_cons_of_mem _ hq))

/-- The bridge `find_mst_bridge` builds from the BFS pair (parent `p`,
child `v`), when the lookups succeed: endpoint coordinates from the stored
record of the numerically sorted pair, `label0 = p + 1`, `label1 = v + 1`. -/
def expectedBridge (ep : ℕ → ℕ → ((ℕ × ℕ) × (ℕ × ℕ))) (p v : ℕ) : Bridge :=
  if p < v then
    ⟨(ep p v).1.2, (ep p v).1.1, (ep p v).2.2, (ep p v).2.1, p + 1, v + 1⟩
  else
    ⟨(ep v p).2.2, (ep v p).2.1, (ep v p).1.2, (ep v p).1.1, p + 1, v + 1⟩

theorem expectedBridge_label0 (ep : ℕ → ℕ → ((ℕ × ℕ) × (ℕ × ℕ))) (p v : ℕ) :
    (expectedBridge ep p v).label0 = p + 1 := by
  unfold expectedBridge
  split <;> rfl

theorem expectedBridge_label1 (ep : ℕ → ℕ → ((ℕ × ℕ) × (ℕ × ℕ))) (p v : ℕ) :
    (expectedBridge ep p v).label1 = v + 1 := by
  unfold expectedBridge
  split <;> rfl

theorem mkBridge_eq (n : ℕ) (hn : n ≤ 9) (ep : ℕ → ℕ → ((ℕ × ℕ) × (ℕ × ℕ)))
    (a b : ℕ) (ha : a < n) (hb : b < n) (hab : a ≠ b) :
    mkBridge (buildConnDict n ep) (a + 1) (b + 1) =
      some (expectedBridge ep a b) := by
  have hinj : ∀ i j, i < j → j < n → ∀ q ∈ pairsUnder n,
      pairKey q.1 q.2 = pairKey i j → q = (i, j) := by
    intro i j hij hjn q hq hkey
    obtain ⟨hq1, hq2⟩ := (mem_pairsUnder n q).mp hq
    rcases pairKey_inj_lt9 q.1 (by omega) q.2 (by omega) i (by omega) j
      (by omega) with hne | ⟨he1, he2⟩
    · exact absurd hkey hne
    · exact Prod.ext he1 he2
  have hlookup : ∀ i j, i < j → j < n →
      (buildConnDict n ep).lookup (pairKey i j) =
        some ⟨i + 1, (ep i j).1, j + 1, (ep i j).2⟩ := by
    intro i j hij hjn
    exact lookup_map_key (pairsUnder n) (fun ij => pairKey ij.1 ij.2)
      (fun ij => ⟨ij.1 + 1, (ep ij.1 ij.2).1, ij.2 + 1, (ep ij.1 ij.2).2⟩)
      (i, j) ((mem_pairsUnder n (i, j)).mpr ⟨hij, hjn⟩)
      (hinj i j hij hjn)
  have hts_ne : ∀ c d : ℕ, c < n → d < n → c ≠ d →
      toString (c + 1) ≠ toString (d + 1) := by
    intro c d hc hd hcd hcontra
    have := (toString_inj_lt10 (c + 1) (by omega) (d + 1) (by omega)).mp hcontra
    omega
  rcases Nat.lt_or_ge a b with hlt | hge
  · have hkey : sortedPairKey (a + 1) (b + 1) = pairKey a b := by
      rw [sortedPairKey_lt10 (a + 1) (by omega) (b + 1) (by omega)]
      have h1 : min (a + 1) (b + 1) = a + 1 := by omega
      have h2 : max (a + 1) (b + 1) = b + 1 := by omega
      rw [h1, h2]
      rfl
    have hc0 : recCoord ⟨a + 1, (ep a b).1, b + 1, (ep a b).2⟩ (a + 1) =
        some (ep a b).1 := by
      unfold recCoord
      rw [if_pos rfl]
    have hc1 : recCoord ⟨a + 1, (ep a b).1, b + 1, (ep a b).2⟩ (b + 1) =
        some (ep a b).2 := by
      unfold recCoord
      rw [if_neg (hts_ne b a hb ha (Ne.symm hab)), if_pos rfl]
    simp only [mkBridge, hkey, hlookup a b hlt hb, hc0, hc1]
    unfold expectedBridge
    rw [if_pos hlt]
  · have hba : b < a := by omega
    have hkey : sortedPairKey (a + 1) (b + 1) = pairKey b a := by
      rw [sortedPairKey_lt10 (a + 1) (by omega) (b + 1) (by omega)]
      have h1 : min (a + 1) (b + 1) = b + 1 := by omega
      have h2 : max (a + 1) (b + 1) = a + 1 := by omega
      rw [h1, h2]
      rfl
    have hc0 : recCoord ⟨b + 1, (ep b a).1, a + 1, (ep b a).2⟩ (a + 1) =
        some (ep b a).2 := by
      unfold recCoord
      rw [if_neg (hts_ne a b ha hb hab), if_pos rfl]
    have hc1 : recCoord ⟨b + 1, (ep b a).1, a + 1, (ep b a).2⟩ (b + 1) =
        some (ep b a).1 := by
      unfold recCoord
      rw [if_pos rfl]
    simp only [mkBridge, hkey, hlookup b a hba ha, hc0, hc1]
    unfold expectedBridge
    rw [if_neg (by omega)]

theorem mapM_eq_some_map (f : ℕ × ℕ → Option Bridge) (g : ℕ × ℕ → Bridge)
    (l : List (ℕ × ℕ)) (h : ∀ a ∈ l, f a = some (g a)) :
    l.mapM f = some (l.map g) := by
  induction l with
  | nil => rfl
  | cons a t ih =>
    rw [List.mapM_cons, h a (List.mem_cons_self a t),
      ih (fun b hb => h b (List.mem_cons_of_mem a hb))]
    rfl

/-- C2 amended: for every distance graph over `1 ≤ N ≤ 9` regions (so that
every label is a single decimal digit and the string-keyed record lookups
resolve; for N ≥ 10 they can raise KeyError, see the counterexample) with a
chosen reference label, `find_mst_bridge` produces a bridge list with
exactly N−1 bridges, in which every region id except the reference appears
exactly once as `label1`, and each bridge's `label0` is either the
reference or the `label1` of an earlier bridge.  The external MST routine
is abstracted by the spanning tree it returns: `edges` together with the
connectivity hypothesis `hconn`. -/
theorem c2_bridge_list_breadth_first (n : ℕ) (hn1 : 1 ≤ n) (hn9 : n ≤ 9)
    (ep : ℕ → ℕ → ((ℕ × ℕ) × (ℕ × ℕ))) (edges : List (ℕ × ℕ)) (ref : ℕ)
    (href1 : 1 ≤ ref) (hrefn : ref ≤ n)
    (hconn : ∀ v, v < n → Reach (edgeAdj n edges) (ref - 1) v) :
    ∃ bl, find_mst_bridge n ep edges ref = some bl ∧
      bl.length = n - 1 ∧
      (∀ l, 1 ≤ l → l ≤ n → l ≠ ref →
        bl.countP (fun b => b.label1 == l) = 1) ∧
      (∀ k, (hk : k < bl.length) →
        (bl.get ⟨k, hk⟩).label0 = ref ∨
        ∃ k2, ∃ hk2 : k2 < bl.length, k2 < k ∧
          (bl.get ⟨k2, hk2⟩).label1 = (bl.get ⟨k, hk⟩).label0) := by
  obtain ⟨hlen, hchron, hnodup, hltn, hall⟩ :=
    breadth_first_order_spec (edgeAdj n edges) (ref - 1) n (by omega)
      (edgeAdj_lt n edges) (edgeAdj_nodup n edges) hconn
  cases hresc : breadth_first_order (edgeAdj n edges) (ref - 1) n with
  | nil => rw [hresc] at hlen; simp at hlen; omega
  | cons r0 rt =>
    rw [hresc] at hlen hchron hnodup hltn hall
    have hr0 : r0 = (ref - 1, ref - 1) := by
      have := hchron 0 (by simp)
      rcases this with h | ⟨h, _⟩
      · exact absurd h (by simp [nodesOf])
      · simpa using h
    have hnodup2 : r0.1 ∉ nodesOf rt ∧ (nodesOf rt).Nodup := by
      have : (r0.1 :: nodesOf rt).Nodup := hnodup
      exact ⟨(List.nodup_cons.mp this).1, (List.nodup_cons.mp this).2⟩
    -- facts about each BFS entry after the root
    have hentry : ∀ k, (hk : k < rt.length) →
        (rt.get ⟨k, hk⟩).2 ∈ nodesOf ((r0 :: rt).take (k + 1)) ∧
        (rt.get ⟨k, hk⟩).1 ∉ nodesOf ((r0 :: rt).take (k + 1)) ∧
        (rt.get ⟨k, hk⟩).1 < n ∧ (rt.get ⟨k, hk⟩).2 < n := by
      intro k hk
      have hk1 : k + 1 < (r0 :: rt).length := by simpa using hk
      have hget : (r0 :: rt).get ⟨k + 1, hk1⟩ = rt.get ⟨k, hk⟩ := rfl
      have hpred : (rt.get ⟨k, hk⟩).2 ∈ nodesOf ((r0 :: rt).take (k + 1)) := by
        rcases hchron (k + 1) hk1 with h | ⟨_, hzero⟩
        · rw [hget] at h; exact h
        · cases hzero
      have hfst : (rt.get ⟨k, hk⟩).1 ∉ nodesOf ((r0 :: rt).take (k + 1)) := by
        intro hmem
        have hsplit : nodesOf (r0 :: rt) =
            nodesOf ((r0 :: rt).take (k + 1)) ++
              nodesOf ((r0 :: rt).drop (k + 1)) := by
          rw [← nodesOf_append, List.take_append_drop]
        have hnd := hnodup
        rw [hsplit, List.nodup_append] at hnd
        refine hnd.2.2 hmem ?_
        have : (rt.get ⟨k, hk⟩).1 ∈ nodesOf ((r0 :: rt).drop (k + 1)) := by
          have hdl : k + 1 + 0 < (r0 :: rt).length := by simpa using hk
          have h0 : 0 < ((r0 :: rt).drop (k + 1)).length := by
            rw [List.length_drop]
            simp only [List.length_cons]
            omega
          have : ((r0 :: rt).drop (k + 1)).get ⟨0, h0⟩ = rt.get ⟨k, hk⟩ := by
            rw [show ((r0 :: rt).drop (k + 1)).get ⟨0, h0⟩ =
              ((r0 :: rt).drop (k + 1))[0] from rfl, List.getElem_drop]
            rfl
          rw [← this]
          exact List.mem_map_of_mem Prod.fst (by
            rw [show ((r0 :: rt).drop (k + 1)).get ⟨0, h0⟩ =
              ((r0 :: rt).drop (k + 1))[0] from rfl]
            exact List.getElem_mem h0)
        exact this
      refine ⟨hpred, hfst, ?_, ?_⟩
      · refine hltn _ ?_
        show (rt.get ⟨k, hk⟩).1 ∈ nodesOf (r0 :: rt)
        refine List.mem_map_of_mem Prod.fst ?_
        exact List.mem_cons_of_mem r0 (by
          rw [show rt.get ⟨k, hk⟩ = rt[k] from rfl]
          exact List.getElem_mem hk)
      · have hsub : nodesOf ((r0 :: rt).take (k + 1)) ⊆ nodesOf (r0 :: rt) := by
          intro a ha
          rw [show nodesOf (r0 :: rt) = nodesOf ((r0 :: rt).take (k + 1)) ++
            nodesOf ((r0 :: rt).drop (k + 1)) by
              rw [← nodesOf_append, List.take_append_drop]]
          exact List.mem_append_left _ ha
        exact hltn _ (hsub hpred)
    -- the lookups all succeed
    have hmk : ∀ vp ∈ rt, mkBridge (buildConnDict n ep) (vp.2 + 1) (vp.1 + 1) =
        some (expectedBridge ep vp.2 vp.1) := by
      intro vp hvp
      obtain ⟨k, hk, hvpk⟩ := List.mem_iff_getElem.mp hvp
      have := hentry k hk
      rw [show rt.get ⟨k, hk⟩ = rt[k] from rfl, hvpk] at this
      obtain ⟨hpred, hfst, h1n, h2n⟩ := this
      refine mkBridge_eq n hn9 ep vp.2 vp.1 h2n h1n ?_
      intro hcontra
      rw [hcontra] at hpred
      exact hfst hpred
    refine ⟨rt.map (fun vp => expectedBridge ep vp.2 vp.1), ?_, ?_, ?_, ?_⟩
    · show ((breadth_first_order (edgeAdj n edges) (ref - 1) n).drop 1).mapM
        (fun vp => mkBridge (buildConnDict n ep) (vp.2 + 1) (vp.1 + 1)) =
        some (rt.map (fun vp => expectedBridge ep vp.2 vp.1))
      rw [hresc]
      exact mapM_eq_some_map _ _ rt hmk
    · rw [List.length_map]
      have : (r0 :: rt).length = n := hlen
      simp only [List.length_cons] at this
      omega
    · intro l hl1 hln hlref
      rw [List.countP_map]
      have hpt : ∀ vp : ℕ × ℕ,
          ((fun b => b.label1 == l) ∘ (fun vp => expectedBridge ep vp.2 vp.1)) vp =
            (vp.1 == l - 1) := by
        intro vp
        show ((expectedBridge ep vp.2 vp.1).label1 == l) = (vp.1 == l - 1)
        rw [expectedBridge_label1]
        by_cases h : vp.1 + 1 = l
        · rw [beq_iff_eq.mpr h, Eq.comm, beq_iff_eq.mpr (by omega)]
        · rw [beq_eq_false_iff_ne.mpr h, Eq.comm,
            beq_eq_false_iff_ne.mpr (by omega)]
      calc rt.countP ((fun b => b.label1 == l) ∘ (fun vp => expectedBridge ep vp.2 vp.1))
          = rt.countP (fun vp => vp.1 == l - 1) := by
            exact List.countP_congr (fun vp _ => by rw [hpt vp])
        _ = (nodesOf rt).count (l - 1) := by
            rw [nodesOf, List.count, List.countP_map]
            rfl
        _ = 1 := by
            refine List.count_eq_one_of_mem hnodup2.2 ?_
            have hmem : l - 1 ∈ nodesOf (r0 :: rt) := hall (l - 1) (by omega)
            have : nodesOf (r0 :: rt) = r0.1 :: nodesOf rt := rfl
            rw [this] at hmem
            rcases List.mem_cons.mp hmem with h | h
            · exfalso
              rw [hr0] at h
              simp only [] at h
              omega
            · exact h
    · intro k hk
      have hkrt : k < rt.length := by
        have h2 := hk
        rw [List.length_map] at h2
        exact h2
      have hgetk : (rt.map (fun vp => expectedBridge ep vp.2 vp.1)).get
          ⟨k, hk⟩ = expectedBridge ep (rt[k]).2 (rt[k]).1 := by
        rw [show (rt.map (fun vp => expectedBridge ep vp.2 vp.1)).get
          ⟨k, hk⟩ = (rt.map (fun vp => expectedBridge ep vp.2 vp.1))[k]
          from rfl, List.getElem_map]
      rw [hgetk, expectedBridge_label0]
      obtain ⟨hpred, _, _, _⟩ := hentry k hkrt
      rw [show rt.get ⟨k, hkrt⟩ = rt[k] from rfl] at hpred
      have htake : (r0 :: rt).take (k + 1) = r0 :: rt.take k := rfl
      rw [htake, show nodesOf (r0 :: rt.take k) =
        r0.1 :: nodesOf (rt.take k) from rfl] at hpred
      rcases List.mem_cons.mp hpred with h | h
      · refine Or.inl ?_
        rw [h, hr0]
        show ref - 1 + 1 = ref
        omega
      · obtain ⟨q, hq, hq2⟩ := List.mem_map.mp h
        obtain ⟨k2, hk2, hqk2⟩ := List.mem_iff_getElem.mp hq
        have hk2t : k2 < k := by
          have h2 := hk2
          rw [List.length_take] at h2
          omega
        have hk2rt : k2 < rt.length := by
          have h2 := hk2
          rw [List.length_take] at h2
          omega
        have hk2m : k2 < (rt.map (fun vp => expectedBridge ep vp.2 vp.1)).length := by
          rw [List.length_map]
          exact hk2rt
        refine Or.inr ⟨k2, hk2m, hk2t, ?_⟩
        have hgetk2 : (rt.map (fun vp => expectedBridge ep vp.2 vp.1)).get
            ⟨k2, hk2m⟩ = expectedBridge ep (rt[k2]).2 (rt[k2]).1 := by
          rw [show (rt.map (fun vp => expectedBridge ep vp.2 vp.1)).get
            ⟨k2, hk2m⟩ = (rt.map (fun vp => expectedBridge ep vp.2 vp.1))[k2]
            from rfl, List.getElem_map]
        rw [hgetk2, expectedBridge_label1]
        have hq3 : (rt.take k)[k2] = rt[k2] := List.getElem_take rt
        rw [hq3] at hqk2
        rw [hqk2, hq2]

/-- Path spanning tree over 3 nodes for the C2 witness. -/
def edgesC2w : List (ℕ × ℕ) := [(0, 1), (1, 2)]

def epC2w : ℕ → ℕ → ((ℕ × ℕ) × (ℕ × ℕ)) := fun i j => ((i, i), (j, j))

theorem c2_witness :
    ((1 : ℕ) ≤ 3 ∧ (3 : ℕ) ≤ 9 ∧ (1 : ℕ) ≤ 1 ∧ (1 : ℕ) ≤ 3) ∧
    (∀ v, v < 3 → Reach (edgeAdj 3 edgesC2w) (1 - 1) v) ∧
    (∃ bl, find_mst_bridge 3 epC2w edgesC2w 1 = some bl ∧
      bl.length = 3 - 1 ∧
      (∀ l, 1 ≤ l → l ≤ 3 → l ≠ 1 →
        bl.countP (fun b => b.label1 == l) = 1) ∧
      (∀ k, (hk : k < bl.length) →
        (bl.get ⟨k, hk⟩).label0 = 1 ∨
        ∃ k2, ∃ hk2 : k2 < bl.length, k2 < k ∧
          (bl.get ⟨k2, hk2⟩).label1 = (bl.get ⟨k, hk⟩).label0)) := by
  have hconn : ∀ v, v < 3 → Reach (edgeAdj 3 edgesC2w) 0 v := by
    intro v hv
    interval_cases v
    · exact Reach.refl
    · exact Reach.tail Reach.refl
        (show (1 : ℕ) ∈ edgeAdj 3 edgesC2w 0 by decide)
    · refine Reach.tail (w := 2) ?_ (show (2 : ℕ) ∈ edgeAdj 3 edgesC2w 1 by decide)
      exact Reach.tail Reach.refl
        (show (1 : ℕ) ∈ edgeAdj 3 edgesC2w 0 by decide)
  exact ⟨⟨by decide, by decide, by decide, by decide⟩, by simpa using hconn,
    c2_bridge_list_breadth_first 3 (by decide) (by decide) epC2w edgesC2w 1
      (by decide) (by decide) (by simpa using hconn)⟩
